import Mathlib

/-!
Verification of the pdf2epub pipeline (generate_epub.py, translate_epub.py,
utils/network_utils.py, utils/html_utils.py) against its specification.

Strings from the Python side are modelled as `List Char`; file systems as
association lists from path to content; the Gemini API, PDF reader and image
codec as oracle parameters.  Machine floats (page dimensions, backoff times)
are modelled as `ℚ`.
-/

set_option maxHeartbeats 1000000

/-- A Python `str` as a list of characters. -/
def str (s : String) : List Char := s.data

/-- Python `\s` for ASCII input (space, tab, newline, CR, vertical tab, form feed). -/
def pyWs (c : Char) : Bool :=
  c = ' ' || c = '\t' || c = '\n' || c = '\r' || c = '\x0b' || c = '\x0c'

/-- Python `\d` for ASCII input. -/
def pyDigit (c : Char) : Bool := '0' ≤ c && c ≤ '9'

/-- Python `[a-zA-Z]`. -/
def pyAlpha (c : Char) : Bool := ('a' ≤ c && c ≤ 'z') || ('A' ≤ c && c ≤ 'Z')

/-- Python `str.strip()` (ASCII whitespace). -/
def pyStrip (s : List Char) : List Char :=
  ((s.dropWhile pyWs).reverse.dropWhile pyWs).reverse

/-- Whether `n` occurs as a contiguous substring of `s`. -/
def containsSub (n s : List Char) : Bool :=
  match s with
  | [] => n.isEmpty
  | _ :: cs => n.isPrefixOf s || containsSub n cs

/-- Python `str.split(sep)` for a single-character separator: always returns at
least one piece; `"".split(c) = [""]`. -/
def splitOnChar (sep : Char) (s : List Char) : List (List Char) :=
  match s with
  | [] => [[]]
  | c :: cs =>
    let rest := splitOnChar sep cs
    if c = sep then [] :: rest
    else match rest with
      | [] => [[c]]
      | r :: rs => (c :: r) :: rs

/-! ### generate_epub.py / translate_epub.py `main`: the --resume flag

`generate_epub.main` parses `--resume` (short `-r`) into `args.resume` but decides
`resuming = epub_dir.exists() and progress_file.exists()` (line 1062) without
ever reading `args.resume`; `translate_epub.translate_epub` likewise decides
`resuming = epub_translated_dir.exists()` (line 458) and never reads the flag.
-/

/-- Arguments of `generate_epub.py` as parsed by argparse (lines 1020-1029). -/
structure GenerateEpubArgs where
  input : List Char
  config : List Char
  resume : Bool

/-- Arguments of `translate_epub.py` as parsed by argparse (lines 744-771). -/
structure TranslateEpubArgs where
  input : List Char
  sourceLang : Option (List Char)
  targetLang : Option (List Char)
  config : List Char
  resume : Bool

/-- `generate_epub.main` line 1062: `resuming = epub_dir.exists() and
progress_file.exists()` — the parsed `args` are in scope but `args.resume`
is not consulted. -/
def assemblyResuming (epubDirExists progressFileExists : Bool)
    (_args : GenerateEpubArgs) : Bool :=
  epubDirExists && progressFileExists

/-- `translate_epub.translate_epub` line 458: `resuming =
epub_translated_dir.exists()`; `args.resume` is never consulted. -/
def translationResuming (translatedDirExists : Bool)
    (_args : TranslateEpubArgs) : Bool :=
  translatedDirExists

/-! ### extract_images_from_pdf_page (generate_epub.py lines 278-335) -/

/-- An embedded image as returned by `pdf_doc.extract_image(xref)`; `convertOk`
models whether `PIL` can decode/re-encode the bytes (the `try`/`except` at
lines 309-317). -/
structure BaseImage where
  width : ℕ
  height : ℕ
  ext : List Char
  convertOk : Bool
  deriving DecidableEq

/-- One record of the `extracted_images` list (lines 325-331). -/
structure ExtractedImage where
  filename : List Char
  path : List Char
  page : ℕ
  width : ℕ
  height : ℕ
  deriving DecidableEq

/-- ASCII `str.lower()`. -/
def asciiLower (s : List Char) : List Char :=
  s.map (fun c => if 'A' ≤ c ∧ c ≤ 'Z' then Char.ofNat (c.toNat + 32) else c)

/-- Decimal rendering of a natural number, as Python str(n). -/
def natStr (n : ℕ) : List Char := (toString n).data

/-- The loop body of `extract_images_from_pdf_page`: filters out images with
width or height `< 100`, images covering more than 90% of both page
dimensions, and images PIL cannot convert; every kept image is written under
`chapter_{chapter_index}_img_{counter}.{ext}` with an incrementing counter. -/
def extractImagesFromPdfPage (images : List BaseImage) (pageW pageH : ℚ)
    (imagesDir : List Char) (pageNum chapterIndex : ℕ) (baseCounter : ℕ) :
    List ExtractedImage × ℕ :=
  match images with
  | [] => ([], baseCounter)
  | img :: rest =>
    if img.width < 100 ∨ img.height < 100 then
      extractImagesFromPdfPage rest pageW pageH imagesDir pageNum chapterIndex baseCounter
    else if (img.width : ℚ) > 9/10 * pageW ∧ (img.height : ℚ) > 9/10 * pageH then
      extractImagesFromPdfPage rest pageW pageH imagesDir pageNum chapterIndex baseCounter
    else
      let extLow := asciiLower img.ext
      if extLow ≠ (str "jpeg") ∧ extLow ≠ (str "jpg") then
        if img.convertOk then
          let fn := (str "chapter_") ++ natStr chapterIndex ++ (str "_img_") ++
            natStr baseCounter ++ (str ".") ++ (str "jpg")
          let rec' : ExtractedImage :=
            ⟨fn, imagesDir ++ (str "/") ++ fn, pageNum, img.width, img.height⟩
          let (more, cnt) :=
            extractImagesFromPdfPage rest pageW pageH imagesDir pageNum chapterIndex
              (baseCounter + 1)
          (rec' :: more, cnt)
        else
          extractImagesFromPdfPage rest pageW pageH imagesDir pageNum chapterIndex baseCounter
      else
        let fn := (str "chapter_") ++ natStr chapterIndex ++ (str "_img_") ++
          natStr baseCounter ++ (str ".") ++ img.ext
        let rec' : ExtractedImage :=
          ⟨fn, imagesDir ++ (str "/") ++ fn, pageNum, img.width, img.height⟩
        let (more, cnt) :=
          extractImagesFromPdfPage rest pageW pageH imagesDir pageNum chapterIndex
            (baseCounter + 1)
        (rec' :: more, cnt)

/-! ### utils/network_utils.py: generate_content_with_retry (lines 135-239)

The while loop (line 161) runs with `retry_count` going 0, 1, …; before each
re-attempt with `retry_count > 0` it sleeps
`min(2 ** retry_count + 0.1 * retry_count, max_backoff)` (line 165).  All five
`except` clauses (httpx.RemoteProtocolError, ReadTimeout, ConnectTimeout,
HTTPError, and the catch-all `Exception`) behave identically: log, increment,
continue; a `None` response likewise increments (line 233).  `gcwrAux` models
the loop with fuel `max_retries - retry_count`, which is positive exactly when
the while-guard holds; each iteration records the sleep it performs.
-/

/-- The exception classes caught by the retry loop (lines 207-230); `unexpected`
is the catch-all `except Exception` branch. -/
inductive ExcKind where
  | remoteProtocolError
  | readTimeout
  | connectTimeout
  | httpError
  | unexpected
  deriving DecidableEq

/-- Outcome of one attempt of the wrapped API call: it raises some exception,
or returns a response (possibly `None`). -/
inductive AttemptOutcome (α : Type) where
  | raised (e : ExcKind)
  | returned (r : Option α)
  deriving DecidableEq

/-- An attempt that did not produce a response: any raised exception, or a
`None` return (both take the retry path in the loop). -/
def AttemptOutcome.failed : AttemptOutcome α → Bool
  | .returned (some _) => false
  | .returned none => true
  | .raised _ => true

/-- Line 165: `backoff_time = min(2 ** retry_count + (0.1 * retry_count),
max_backoff)`. -/
def backoffTime (n : ℕ) (maxB : ℚ) : ℚ :=
  min (2 ^ n + (1/10) * (n : ℚ)) maxB

/-- Line 237: the exhaustion error message. -/
def exhaustMsg (opName : List Char) (maxRetries : ℕ) : List Char :=
  (str "Failed to execute ") ++ opName ++ (str " after ") ++ natStr maxRetries ++
    (str " attempts")

/-- The retry while-loop (lines 161-234) with fuel `max_retries - retry_count`:
returns the list of sleeps performed and the response, if any. -/
def gcwrAux (attempts : ℕ → AttemptOutcome α) (maxB : ℚ) :
    ℕ → ℕ → List ℚ × Option α
  | 0, _ => ([], none)
  | fuel + 1, rc =>
    let sl := if 0 < rc then [backoffTime rc maxB] else []
    match attempts rc with
    | .returned (some r) => (sl, some r)
    | .returned none =>
      let p := gcwrAux attempts maxB fuel (rc + 1)
      (sl ++ p.1, p.2)
    | .raised _ =>
      let p := gcwrAux attempts maxB fuel (rc + 1)
      (sl ++ p.1, p.2)

/-- `generate_content_with_retry`: the loop followed by the final
`if response is None: raise ValueError(...)` (lines 236-239).  Returns the
result together with the sequence of backoff sleeps performed. -/
def generateContentWithRetry (attempts : ℕ → AttemptOutcome α) (maxRetries : ℕ)
    (maxB : ℚ) (opName : List Char) : Except (List Char) α × List ℚ :=
  let p := gcwrAux attempts maxB maxRetries 0
  (match p.2 with
   | some r => .ok r
   | none => .error (exhaustMsg opName maxRetries), p.1)

/-! ### generate_epub.py: progress ledger and the chapter loop (lines 77-115, 1147-1221)

`load_generation_progress` seeds a progress dict whose keys are modelled by
`AsmProgress`; the chapter loop (lines 1162-1221) skips chapter `i` when
`i <= progress["last_processed_chapter_index"]` or some entry of
`progress["chapters"]` has `index == i and generated` (the `elif` at line 1168
always fires because lines 1151-1160 ensure the `chapters` list exists).
-/

/-- A chapter of `book_structure.json`. -/
structure BookChapter where
  title : List Char
  startPage : ℕ
  endPage : ℕ
  deriving DecidableEq

/-- One entry of `progress["chapters"]` (lines 109-113). -/
structure AsmUnit where
  index : ℕ
  title : List Char
  generated : Bool
  deriving DecidableEq

/-- The generation-progress ledger (lines 90-103); `processed_chapters` is
never consulted nor updated by the loop and is omitted. -/
structure AsmProgress where
  coverExtracted : Bool
  coverHtmlCreated : Bool
  stylesheetCreated : Bool
  tocNcxCreated : Bool
  tocHtmlCreated : Bool
  containerXmlCreated : Bool
  mimetypeCreated : Bool
  contentOpfCreated : Bool
  lastProcessedChapterIndex : Int
  coverImageFilename : List Char
  chapterTitles : List (List Char)
  chapters : List AsmUnit
  deriving DecidableEq

/-- Lines 1163-1173: chapter `i` (1-based) counts as already processed iff
`i <= last_processed_chapter_index` or its `chapters` entry has
`generated == True` (first matching entry, via the `break`). -/
def chapterProcessed (p : AsmProgress) (i : ℕ) : Bool :=
  decide ((i : Int) ≤ p.lastProcessedChapterIndex) ||
    p.chapters.any (fun ch => ch.index == i && ch.generated)

/-- Lines 1200-1203: `chapter_titles` is appended to when shorter than `i`,
otherwise slot `i-1` is overwritten. -/
def updateTitles (titles : List (List Char)) (i : ℕ) (t : List Char) :
    List (List Char) :=
  if titles.length < i then titles ++ [t] else titles.set (i - 1) t

/-- Lines 1209-1212: set `generated` on the first `chapters` entry with
`index == i` (the loop breaks after the first hit). -/
def markGenerated : List AsmUnit → ℕ → List AsmUnit
  | [], _ => []
  | ch :: rest, i =>
    if ch.index = i then { ch with generated := true } :: rest
    else ch :: markGenerated rest i

/-- The ledger update performed after chapter `i`'s document has been written
(lines 1199-1212). -/
def asmAdvance (p : AsmProgress) (i : ℕ) (title : List Char) : AsmProgress :=
  { p with
    chapterTitles := updateTitles p.chapterTitles i title
    lastProcessedChapterIndex := (i : Int)
    chapters := markGenerated p.chapters i }

/-- A file system as an association list, most recent write first. -/
def FileSys : Type := List (List Char × List Char)

def fsWrite (fs : FileSys) (name content : List Char) : FileSys :=
  (name, content) :: fs

def fsRead : FileSys → List Char → Option (List Char)
  | [], _ => none
  | (n, c) :: rest, name => if n = name then some c else fsRead rest name

/-- Path of chapter `i`'s document relative to the epub directory. -/
def chapterName (i : ℕ) : List Char :=
  (str "text/chapter_") ++ natStr i ++ (str ".html")

/-- The chapter loop of `main` (lines 1162-1221).  `gen i ctx` is the cleaned
HTML that `create_chapter_html` produces for chapter `i` given the
`previous_chapters` context; processing a chapter writes its document, then
advances the ledger; skipping a chapter only reads its document into the
context.  Returns the final ledger, file system, and the chronological list of
chapter documents written. -/
def runAssemblyChapters (gen : ℕ → List (List Char) → List Char) :
    List BookChapter → ℕ → AsmProgress → FileSys → List (List Char) →
      List (List Char) → AsmProgress × FileSys × List (List Char)
  | [], _, p, fs, _ctx, writes => (p, fs, writes.reverse)
  | ch :: rest, i, p, fs, ctx, writes =>
    if chapterProcessed p i then
      let ctx' := match fsRead fs (chapterName i) with
        | some content => ctx ++ [content]
        | none => ctx
      runAssemblyChapters gen rest (i + 1) p fs ctx' writes
    else
      let doc := gen i ctx
      let fs' := fsWrite fs (chapterName i) doc
      let p' := asmAdvance p i ch.title
      runAssemblyChapters gen rest (i + 1) p' fs' (ctx ++ [doc])
        (chapterName i :: writes)

/-- The ledger of the end-to-end scenario: three chapters, only chapter 2
marked generated, legacy cursor untouched. -/
def scenarioProgress : AsmProgress where
  coverExtracted := true
  coverHtmlCreated := true
  stylesheetCreated := true
  tocNcxCreated := true
  tocHtmlCreated := true
  containerXmlCreated := true
  mimetypeCreated := true
  contentOpfCreated := false
  lastProcessedChapterIndex := -1
  coverImageFilename := str "cover.jpeg"
  chapterTitles := []
  chapters := [⟨1, str "One", false⟩, ⟨2, str "Two", true⟩, ⟨3, str "Three", false⟩]

/-- The three-chapter book structure of the scenario. -/
def scenarioChapters : List BookChapter :=
  [⟨str "One", 1, 10⟩, ⟨str "Two", 11, 20⟩, ⟨str "Three", 21, 30⟩]

/-! ### translate_epub.py: translation progress ledger (lines 414-428, 601-706) -/

/-- One entry of `progress["translated_chapters"]` (lines 521-529). -/
structure TransUnit where
  title : List Char
  src : List Char
  originalTitle : List Char
  translated : Bool
  deriving DecidableEq

/-- One entry of `progress["translated_html_files"]` (lines 560-566). -/
structure TransHtmlUnit where
  src : List Char
  translated : Bool
  title : List Char
  deriving DecidableEq

/-- The translation-progress ledger (lines 419-428). -/
structure TransProgress where
  bookTitleTranslated : Bool
  tocTranslated : Bool
  contentOpfUpdated : Bool
  translatedChapters : List TransUnit
  translatedHtmlFiles : List TransHtmlUnit
  translatedBookTitle : List Char
  lastProcessedChapterIndex : Int
  lastProcessedHtmlIndex : Int
  deriving DecidableEq

/-- Line 653: `progress["translated_chapters"][i]["translated"] = True`
(0-based index assignment). -/
def markTranslated : List TransUnit → ℕ → List TransUnit
  | [], _ => []
  | u :: rest, 0 => { u with translated := true } :: rest
  | u :: rest, n + 1 => u :: markTranslated rest n

/-- The ledger update after chapter `i`'s translated document has been written
(lines 653-654). -/
def transAdvance (p : TransProgress) (i : ℕ) : TransProgress :=
  { p with
    translatedChapters := markTranslated p.translatedChapters i
    lastProcessedChapterIndex := (i : Int) }

/-- Line 700: `progress["translated_html_files"][i]["translated"] = True`
(0-based index assignment). -/
def markHtmlTranslated : List TransHtmlUnit → ℕ → List TransHtmlUnit
  | [], _ => []
  | u :: rest, 0 => { u with translated := true } :: rest
  | u :: rest, n + 1 => u :: markHtmlTranslated rest n

/-- The ledger update after additional HTML file `i`'s translated document has
been written (lines 700-701). -/
def transHtmlAdvance (p : TransProgress) (i : ℕ) : TransProgress :=
  { p with
    translatedHtmlFiles := markHtmlTranslated p.translatedHtmlFiles i
    lastProcessedHtmlIndex := (i : Int) }

/-! ### C2: effect order of processing one unit

Each pipeline's treatment of one unit is flattened into its chronological
sequence of side effects.  Assembly chapter `i` (create_chapter_html, lines
504-784, called from main at 1185-1214): write the cropped temp PDF (536),
read it (540), the unconditional API call (676) plus the calls of the retry
loop (712), the placeholder image writes (322), the chapter document write
(774), temp removal (779), then back in `main` the ledger save (1214) and the
context re-read (1217).  Translation chapter `i` (lines 626-655): read the
source document, one invoker call, write the translated document, then save
the ledger.
-/

/-- A side effect of processing one unit. -/
inductive Effect where
  | writeFile (name : List Char)
  | removeFile (name : List Char)
  | readFile (name : List Char)
  | apiCall
  | saveAsmLedger (p : AsmProgress)
  | saveTransLedger (p : TransProgress)
  deriving DecidableEq

/-- Path of the temporary chapter PDF (line 535). -/
def tempPdfName (i : ℕ) : List Char :=
  (str "text/temp_chapter_") ++ natStr i ++ (str ".pdf")

/-- Effects of `create_chapter_html` before the chapter document write:
temp-PDF write and read, the first API call, `apiRetries` further calls of the
retry loop, and the extracted-image writes. -/
def assemblyUnitPrefixEffects (i apiRetries : ℕ) (imageFiles : List (List Char)) :
    List Effect :=
  [.writeFile (tempPdfName i), .readFile (tempPdfName i), .apiCall] ++
    List.replicate apiRetries Effect.apiCall ++ imageFiles.map .writeFile

/-- The full effect sequence of processing assembly chapter `i` whose ledger
before the unit is `p`. -/
def assemblyUnitEffects (i apiRetries : ℕ) (imageFiles : List (List Char))
    (p : AsmProgress) (title : List Char) : List Effect :=
  assemblyUnitPrefixEffects i apiRetries imageFiles ++
    [.writeFile (chapterName i), .removeFile (tempPdfName i),
      .saveAsmLedger (asmAdvance p i title), .readFile (chapterName i)]

/-- The full effect sequence of processing translation chapter `i` (0-based)
whose ledger before the unit is `q` and whose source document is `srcPath`. -/
def translationUnitEffects (srcPath : List Char) (i : ℕ) (q : TransProgress) :
    List Effect :=
  [.readFile srcPath, .apiCall, .writeFile srcPath,
    .saveTransLedger (transAdvance q i)]

/-- The full effect sequence of processing additional HTML file `i` (0-based)
whose ledger before the unit is `q` (lines 660-702): read the file (675), one
invoker call (679), write the translated file (691), then mark the unit, set
the HTML cursor and save the ledger (700-702). -/
def translationHtmlUnitEffects (htmlPath : List Char) (i : ℕ) (q : TransProgress) :
    List Effect :=
  [.readFile htmlPath, .apiCall, .writeFile htmlPath,
    .saveTransLedger (transHtmlAdvance q i)]

/-- The assembly ledger on disk after executing a list of effects, given the
ledger `p` that was on disk before: the snapshot of the last save, if any. -/
def lastSavedAsm (l : List Effect) (p : AsmProgress) : AsmProgress :=
  l.foldl (fun acc e => match e with | .saveAsmLedger q => q | _ => acc) p

/-- The translation ledger on disk after executing a list of effects. -/
def lastSavedTrans (l : List Effect) (q : TransProgress) : TransProgress :=
  l.foldl (fun acc e => match e with | .saveTransLedger r => r | _ => acc) q

/-- A translation ledger with a single untranslated chapter unit. -/
def sampleTransProgress : TransProgress where
  bookTitleTranslated := true
  tocTranslated := true
  contentOpfUpdated := true
  translatedChapters := [⟨str "第一章", str "text/chapter_1.html", str "One", false⟩]
  translatedHtmlFiles := [⟨str "cover.html", false, str "Additional content: cover.html"⟩]
  translatedBookTitle := str "书名"
  lastProcessedChapterIndex := -1
  lastProcessedHtmlIndex := -1

/-! ### translate_epub.py: the chapter-translation loop (lines 601-655)

For each chapter from `last_processed_chapter_index + 1` on: skip if its
progress entry is already translated (606); locate the source file by base
name under the translated directory (616); **if and only if** a path was found
(620), read, translate, write, carry forward bounded context (646-650), mark
translated and advance the cursor (653-655).  When no file is found the `if
chapter_path:` guard simply falls through: nothing happens for that chapter.
-/

/-- The loop, with `exists?` modelling whether `rglob` finds a file for a
source name and `translate i u prev` the `translate_html_content` call (which
may raise — `.error` — on invoker/sanitizer exhaustion).  Accumulates the
indices for which a translation call was made and the `(index, content)`
writes performed. -/
def transLoop (exists? : List Char → Bool)
    (translate : ℕ → TransUnit → Option (List Char) → Except (List Char) (List Char))
    (prevLimit : ℕ) :
    List TransUnit → ℕ → TransProgress → Option (List Char) → List ℕ →
      List (ℕ × List Char) →
      Except (List Char) (TransProgress × List ℕ × List (ℕ × List Char))
  | [], _, p, _, calls, writes => .ok (p, calls.reverse, writes.reverse)
  | u :: rest, i, p, prev, calls, writes =>
    if ((p.translatedChapters.get? i).map TransUnit.translated).getD false then
      transLoop exists? translate prevLimit rest (i + 1) p prev calls writes
    else if exists? u.src then
      match translate i u prev with
      | .error e => .error e
      | .ok t =>
        let p' := transAdvance p i
        let prev' := if 0 < prevLimit then some (t.take prevLimit) else none
        transLoop exists? translate prevLimit rest (i + 1) p' prev' (i :: calls)
          ((i, t) :: writes)
    else
      transLoop exists? translate prevLimit rest (i + 1) p prev calls writes

/-- The chapter-translation stage: iterate from
`last_processed_chapter_index + 1` (line 603). -/
def translateChaptersStage (exists? : List Char → Bool)
    (translate : ℕ → TransUnit → Option (List Char) → Except (List Char) (List Char))
    (prevLimit : ℕ) (p : TransProgress) :
    Except (List Char) (TransProgress × List ℕ × List (ℕ × List Char)) :=
  let start := (p.lastProcessedChapterIndex + 1).toNat
  transLoop exists? translate prevLimit (p.translatedChapters.drop start) start p
    none [] []

/-- File-existence oracle of the witness scenario: only chapter 2's document
is present in the translated directory. -/
def c10Exists (s : List Char) : Bool := decide (s = str "text/chapter_2.html")

/-- Translation oracle of the witness scenario: always succeeds. -/
def c10Translate (_ : ℕ) (_ : TransUnit) (_ : Option (List Char)) :
    Except (List Char) (List Char) := .ok (str "<html>t</html>")

/-- Translation ledger of the witness scenario: two untranslated chapters. -/
def c10Progress : TransProgress where
  bookTitleTranslated := true
  tocTranslated := true
  contentOpfUpdated := true
  translatedChapters :=
    [⟨str "一", str "text/chapter_1.html", str "One", false⟩,
     ⟨str "二", str "text/chapter_2.html", str "Two", false⟩]
  translatedHtmlFiles := []
  translatedBookTitle := str "书名"
  lastProcessedChapterIndex := -1
  lastProcessedHtmlIndex := -1

/-! ### translate_epub.py: translate_toc_entries (lines 293-358)

Chapters are processed in batches of `batch_size = 10`.  Each batch's response
text is `strip()`ped, split on newlines, and each line is cleaned of a leading
`\d+\.\s*` numbering and stripped; entry `j` of the batch takes cleaned line
`j` when it exists and falls back to the original title otherwise.
-/

/-- One chapter as recovered from toc.ncx by `parse_toc_ncx` (line 159). -/
structure TocEntry where
  title : List Char
  src : List Char
  deriving DecidableEq

/-- One record of the `translated_chapters` list built by
`translate_toc_entries` (lines 341-356). -/
structure TocOut where
  title : List Char
  src : List Char
  originalTitle : List Char
  deriving DecidableEq

/-- `re.sub(r"^\d+\.\s*", "", title)`: remove a leading digit run followed by
a dot and whitespace, if present ( `^` anchors the substitution to the start). -/
def stripLeadingNumber (line : List Char) : List Char :=
  let ds := line.takeWhile pyDigit
  if ds ≠ [] ∧ (line.drop ds.length).head? = some '.' then
    (line.drop (ds.length + 1)).dropWhile pyWs
  else line

/-- Lines 334-337: `response.text.strip().split("\n")` cleaned per line. -/
def cleanedLines (resp : List Char) : List (List Char) :=
  (splitOnChar '\n' (pyStrip resp)).map (fun line => pyStrip (stripLeadingNumber line))

/-- Lines 339-356: pair batch entry `j` with cleaned line `j`, falling back to
the original title when the response is short. -/
def processTocBatch : List TocEntry → List (List Char) → ℕ → List TocOut
  | [], _, _ => []
  | ch :: rest, cleaned, j =>
    (match cleaned.get? j with
     | some t => (⟨t, ch.src, ch.title⟩ : TocOut)
     | none => ⟨ch.title, ch.src, ch.title⟩) :: processTocBatch rest cleaned (j + 1)

/-- The batching loop (line 299: `for i in range(0, len(chapters), batch_size)`),
with fuel bounding the number of dropped elements; `respText b` is the model's
response for batch `b`. -/
def translateTocBatches (respText : ℕ → List Char) :
    ℕ → List TocEntry → ℕ → List TocOut
  | 0, _, _ => []
  | _, [], _ => []
  | fuel + 1, ch :: rest, b =>
    processTocBatch ((ch :: rest).take 10) (cleanedLines (respText b)) 0 ++
      translateTocBatches respText fuel ((ch :: rest).drop 10) (b + 1)

/-- `translate_toc_entries`: batch size 10, batches numbered from 0. -/
def translateTocEntries (chapters : List TocEntry) (respText : ℕ → List Char) :
    List TocOut :=
  translateTocBatches respText chapters.length chapters 0

/-! ### A backtracking matcher for the fixed regexes of utils/html_utils.py

`clean_html_response` uses a handful of fixed `re` patterns.  They are
transcribed into a token list interpreted by a backtracking matcher whose
choice order follows CPython's `re`: a lazy star tries the shortest
continuation first, a greedy star the longest, an optional group tries
presence first, and `$` matches at the end of the string or just before a
final newline.  All patterns are built from literals, single-character
classes, lazy/greedy stars over a character class (`.` under `re.DOTALL` is
the always-true class), and the optional groups `(?:<lit>.*?<lit>)?` that the
source uses.  The matcher carries fuel; every recursive call strictly
decreases `s.length + toksSize ts`, so the canonical fuel
`s.length + toksSize ts + 1` always suffices (`matchF_congr`).
-/

/-- `.` under `re.DOTALL`. -/
def anyC (_ : Char) : Bool := true

inductive Tok where
  | lit (l : List Char)
  | cls (p : Char → Bool)
  | starL (p : Char → Bool)
  | starG (p : Char → Bool)
  | optBlock (a z : List Char)
  | endA

def tokSize : Tok → ℕ
  | .optBlock _ _ => 4
  | _ => 1

def toksSize (ts : List Tok) : ℕ := (ts.map tokSize).sum

def matchF : ℕ → List Tok → List Char → Option (List Char)
  | 0, _, _ => none
  | _ + 1, [], s => some s
  | fuel + 1, .lit l :: ts, s =>
    if l.isPrefixOf s then matchF fuel ts (s.drop l.length) else none
  | fuel + 1, .cls p :: ts, s =>
    match s with
    | c :: cs => if p c then matchF fuel ts cs else none
    | [] => none
  | fuel + 1, .starL p :: ts, s =>
    (matchF fuel ts s).orElse (fun _ =>
      match s with
      | c :: cs => if p c then matchF fuel (.starL p :: ts) cs else none
      | [] => none)
  | fuel + 1, .starG p :: ts, s =>
    match s with
    | c :: cs =>
      if p c then (matchF fuel (.starG p :: ts) cs).orElse (fun _ => matchF fuel ts s)
      else matchF fuel ts s
    | [] => matchF fuel ts s
  | fuel + 1, .optBlock a z :: ts, s =>
    (matchF fuel (.lit a :: .starL anyC :: .lit z :: ts) s).orElse
      (fun _ => matchF fuel ts s)
  | fuel + 1, .endA :: ts, s =>
    if s = [] ∨ s = ['\n'] then matchF fuel ts s else none

/-- The matcher with canonical fuel: `matchToks ts s = some rem` means the
pattern matches a prefix of `s` leaving remainder `rem`, following the first
path in CPython's backtracking order. -/
def matchToks (ts : List Tok) (s : List Char) : Option (List Char) :=
  matchF (s.length + toksSize ts + 1) ts s

/-! ### re.search and re.sub

`reSearch pat s` scans start positions left to right (as `re.search` does) and
returns `(prefix, group0, remainder)` for the leftmost match.  `pySub pat repl
s` is `re.sub(pat, repl, s)`: scan left to right, replace each non-overlapping
match and continue after it (all patterns used here consume at least one
character on success, so the no-progress guard is dead code kept for
totality). -/

def reSearchF : ℕ → List Tok → List Char → Option (List Char × List Char × List Char)
  | 0, _, _ => none
  | fuel + 1, pat, s =>
    match matchToks pat s with
    | some rem => some ([], s.take (s.length - rem.length), rem)
    | none =>
      match s with
      | [] => none
      | c :: cs => (reSearchF fuel pat cs).map (fun r => (c :: r.1, r.2.1, r.2.2))

def reSearch (pat : List Tok) (s : List Char) :
    Option (List Char × List Char × List Char) :=
  reSearchF (s.length + 1) pat s

def pySubF : ℕ → List Tok → List Char → List Char → List Char
  | 0, _, _, s => s
  | _ + 1, _, _, [] => []
  | fuel + 1, pat, repl, c :: cs =>
    match matchToks pat (c :: cs) with
    | some rem =>
      if rem.length < (c :: cs).length then repl ++ pySubF fuel pat repl rem
      else c :: pySubF fuel pat repl cs
    | none => c :: pySubF fuel pat repl cs

def pySub (pat : List Tok) (repl s : List Char) : List Char :=
  pySubF (s.length + 1) pat repl s

/-! ### json.loads (the first step of clean_html_response, lines 42-49)

A strict JSON parser in the sense of CPython's `json.loads` (including its
`NaN`/`Infinity` extensions).  The numeric value of a number literal is
irrelevant to the sanitizer, so numbers keep their literal text.  Object
member lookup is last-wins, as for a Python dict built by repeated insertion.
-/

inductive JsonVal where
  | jnull
  | jbool (b : Bool)
  | jnum (lit : List Char)
  | jstr (s : List Char)
  | jarr (vs : List JsonVal)
  | jobj (kvs : List (List Char × JsonVal))

/-- JSON whitespace (RFC 8259). -/
def jsonWsC (c : Char) : Bool := c = ' ' || c = '\t' || c = '\n' || c = '\r'

def skipJsonWs (s : List Char) : List Char := s.dropWhile jsonWsC

def hexVal (c : Char) : Option ℕ :=
  if '0' ≤ c ∧ c ≤ '9' then some (c.toNat - '0'.toNat)
  else if 'a' ≤ c ∧ c ≤ 'f' then some (c.toNat - 'a'.toNat + 10)
  else if 'A' ≤ c ∧ c ≤ 'F' then some (c.toNat - 'A'.toNat + 10)
  else none

/-- Parse the body of a JSON string (after the opening quote), decoding the
standard escapes; returns the decoded text and the input after the closing
quote. -/
def parseJsonString : List Char → Option (List Char × List Char)
  | [] => none
  | '"' :: rest => some ([], rest)
  | '\\' :: rest =>
    match rest with
    | [] => none
    | 'u' :: h1 :: h2 :: h3 :: h4 :: rest2 =>
      match hexVal h1, hexVal h2, hexVal h3, hexVal h4 with
      | some a, some b, some c, some d =>
        (parseJsonString rest2).map
          (fun r => (Char.ofNat (((a * 16 + b) * 16 + c) * 16 + d) :: r.1, r.2))
      | _, _, _, _ => none
    | e :: rest2 =>
      match
        (if e = '"' then some '"'
         else if e = '\\' then some '\\'
         else if e = '/' then some '/'
         else if e = 'b' then some '\x08'
         else if e = 'f' then some '\x0c'
         else if e = 'n' then some '\n'
         else if e = 'r' then some '\r'
         else if e = 't' then some '\t'
         else none) with
      | some d => (parseJsonString rest2).map (fun r => (d :: r.1, r.2))
      | none => none
  | c :: rest =>
    if c.toNat < 32 then none
    else (parseJsonString rest).map (fun r => (c :: r.1, r.2))

/-- Parse a JSON number literal (returned as its text). -/
def parseJsonNumber (s : List Char) : Option (List Char × List Char) :=
  let (neg, s1) := match s with
    | '-' :: r => (['-'], r)
    | _ => (([] : List Char), s)
  let (ipart, s2) := match s1 with
    | '0' :: r => ((['0'] : List Char), r)
    | _ =>
      let ds := s1.takeWhile pyDigit
      (ds, s1.drop ds.length)
  if ipart = [] then none
  else
    let (fpart, s3) := match s2 with
      | '.' :: r =>
        let ds := r.takeWhile pyDigit
        if ds = [] then (([] : List Char), s2) else ('.' :: ds, r.drop ds.length)
      | _ => (([] : List Char), s2)
    let (epart, s4) := match s3 with
      | e :: r =>
        if e = 'e' ∨ e = 'E' then
          let (sgn, r2) := match r with
            | '+' :: r3 => ((['+'] : List Char), r3)
            | '-' :: r3 => ((['-'] : List Char), r3)
            | _ => (([] : List Char), r)
          let ds := r2.takeWhile pyDigit
          if ds = [] then (([] : List Char), s3)
          else (e :: (sgn ++ ds), r2.drop ds.length)
        else (([] : List Char), s3)
      | _ => (([] : List Char), s3)
    if fpart = [] ∧ epart = [] ∧ s3 ≠ s2 then none
    else some (neg ++ ipart ++ fpart ++ epart, s4)

mutual

def parseJsonValue : ℕ → List Char → Option (JsonVal × List Char)
  | 0, _ => none
  | fuel + 1, s =>
    match s with
    | [] => none
    | '"' :: rest => (parseJsonString rest).map (fun r => (JsonVal.jstr r.1, r.2))
    | '{' :: rest =>
      (match skipJsonWs rest with
       | '}' :: r2 => some (JsonVal.jobj [], r2)
       | r1 => (parseJsonMembers fuel r1).map (fun r => (JsonVal.jobj r.1, r.2)))
    | '[' :: rest =>
      (match skipJsonWs rest with
       | ']' :: r2 => some (JsonVal.jarr [], r2)
       | r1 => (parseJsonItems fuel r1).map (fun r => (JsonVal.jarr r.1, r.2)))
    | _ :: _ =>
      if (str "true").isPrefixOf s then some (JsonVal.jbool true, s.drop 4)
      else if (str "false").isPrefixOf s then some (JsonVal.jbool false, s.drop 5)
      else if (str "null").isPrefixOf s then some (JsonVal.jnull, s.drop 4)
      else if (str "NaN").isPrefixOf s then some (JsonVal.jnum (str "NaN"), s.drop 3)
      else if (str "Infinity").isPrefixOf s then
        some (JsonVal.jnum (str "Infinity"), s.drop 8)
      else if (str "-Infinity").isPrefixOf s then
        some (JsonVal.jnum (str "-Infinity"), s.drop 9)
      else (parseJsonNumber s).map (fun r => (JsonVal.jnum r.1, r.2))

def parseJsonMembers : ℕ → List Char → Option (List (List Char × JsonVal) × List Char)
  | 0, _ => none
  | fuel + 1, s =>
    match s with
    | '"' :: rest =>
      (match parseJsonString rest with
       | none => none
       | some (key, r1) =>
         match skipJsonWs r1 with
         | ':' :: r2 =>
           (match parseJsonValue fuel (skipJsonWs r2) with
            | none => none
            | some (v, r3) =>
              match skipJsonWs r3 with
              | ',' :: r4 =>
                (parseJsonMembers fuel (skipJsonWs r4)).map
                  (fun r => ((key, v) :: r.1, r.2))
              | '}' :: r4 => some ([(key, v)], r4)
              | _ => none)
         | _ => none)
    | _ => none

def parseJsonItems : ℕ → List Char → Option (List JsonVal × List Char)
  | 0, _ => none
  | fuel + 1, s =>
    match parseJsonValue fuel s with
    | none => none
    | some (v, r1) =>
      match skipJsonWs r1 with
      | ',' :: r2 => (parseJsonItems fuel (skipJsonWs r2)).map (fun r => (v :: r.1, r.2))
      | ']' :: r2 => some ([v], r2)
      | _ => none

end

/-- `json.loads`: leading/trailing whitespace allowed, whole input consumed. -/
def jsonLoads (s : List Char) : Option JsonVal :=
  match parseJsonValue (2 * s.length + 2) (skipJsonWs s) with
  | some (v, rest) => if skipJsonWs rest = [] then some v else none
  | none => none

/-- Last-wins member lookup, as for a Python dict. -/
def lookupLast : List (List Char × JsonVal) → List Char → Option JsonVal
  | [], _ => none
  | (k, v) :: rest, key =>
    match lookupLast rest key with
    | some r => some r
    | none => if k = key then some v else none

/-- Result of the JSON step: either the (possibly substituted) working text,
or a marker that a non-string `parsed["html"]` was substituted (which makes
every later `re.sub`/`json.loads` in the retry loop raise). -/
inductive JsonStepOut where
  | text (t : List Char)
  | nonStr
  deriving DecidableEq

/-- Lines 42-49 of clean_html_response: try `json.loads`; a decoded string
replaces the working text, a dict with an `html` member substitutes that
member; anything else leaves the text unchanged. -/
def jsonStep (t : List Char) : JsonStepOut :=
  match jsonLoads t with
  | some (JsonVal.jstr sVal) => .text sVal
  | some (JsonVal.jobj kvs) =>
    (match lookupLast kvs (str "html") with
     | some (JsonVal.jstr h) => .text h
     | some _ => .nonStr
     | none => .text t)
  | _ => .text t

/-! ### clean_html_response (utils/html_utils.py lines 6-127)

The regexes of the source, transcribed token for token:
`r"```html\s*"`, `r"```\s*$"`, `r"```[a-zA-Z]*\s*"`,
`r"(?:<\?xml.*?\?>)?(?:<\!DOCTYPE.*?>)?(?:<html.*?>).*?<\/html>"` (DOTALL),
`r"(?:<body.*?>).*?<\/body>"`, `r"<div.*?>.*?<\/div>"`, the opening-tag
searches `r"<html.*?>"`, `r"<body.*?>"`, `r"<div.*?>"`, and the log-path
collapse `r"\n{2,}"`. -/

def fenceHtmlPat : List Tok := [.lit (str "```html"), .starG pyWs]

def fenceEndPat : List Tok := [.lit (str "```"), .starG pyWs, .endA]

def fenceAnyPat : List Tok := [.lit (str "```"), .starG pyAlpha, .starG pyWs]

def fullDocPat : List Tok :=
  [.optBlock (str "<?xml") (str "?>"), .optBlock (str "<!DOCTYPE") (str ">"),
   .lit (str "<html"), .starL anyC, .lit (str ">"), .starL anyC, .lit (str "</html>")]

def bodyPat : List Tok :=
  [.lit (str "<body"), .starL anyC, .lit (str ">"), .starL anyC, .lit (str "</body>")]

def divPat : List Tok :=
  [.lit (str "<div"), .starL anyC, .lit (str ">"), .starL anyC, .lit (str "</div>")]

def openHtmlPat : List Tok := [.lit (str "<html"), .starL anyC, .lit (str ">")]

def openBodyPat : List Tok := [.lit (str "<body"), .starL anyC, .lit (str ">")]

def openDivPat : List Tok := [.lit (str "<div"), .starL anyC, .lit (str ">")]

def multiNlPat : List Tok := [.lit (str "\n\n"), .starG (fun c => c = '\n')]

/-- Result of the sanitizer: a cleaned document, the partial-continuation
signal `{"status": "partial", "content": ...}`, a raised `ValueError`, or the
unreachable implicit-`None` fall-through of the while loop. -/
inductive CleanResult where
  | cleaned (s : List Char)
  | partResult (content : List Char)
  | error (msg : List Char)
  | pyNone
  deriving DecidableEq

/-- The `html_content` variable across retry iterations: a string, or the
non-string value a dict's `html` member substituted (which every following
iteration chokes on). -/
inductive CleanState where
  | text (t : List Char)
  | nonText
  deriving DecidableEq

def failMsg : List Char := str "Failed to clean HTML response"

/-- Lines 18-36: with a non-empty `previous_content`, a complete document in
the new text discards the stitching, otherwise the texts are concatenated. -/
def stitchStep (htmlContent : List Char) (previousContent : Option (List Char)) :
    List Char :=
  match previousContent with
  | none => htmlContent
  | some p =>
    if p = [] then htmlContent
    else
      match reSearch fullDocPat htmlContent with
      | some _ => htmlContent
      | none => p ++ htmlContent

/-- Lines 52-54: the three code-fence substitutions in source order. -/
def cleanSubs (t : List Char) : List Char :=
  pySub fenceAnyPat [] (pySub fenceEndPat [] (pySub fenceHtmlPat [] t))

/-- Lines 105-116: take `group(0)`, strip it, retry on empty (raising at the
last attempt, wrapped by the outer handler into `failMsg`), else return it. -/
def cleanFinalize (m : List Char) (canRetry : Bool) : CleanResult ⊕ CleanState :=
  let m' := pyStrip m
  if m' = [] then (if canRetry then .inr (.text m') else .inl (.error failMsg))
  else .inl (.cleaned m')

/-- One iteration of the while loop (lines 40-118 and the handler 120-127):
either a returned result (`inl`) or the state carried into the next iteration
(`inr`); `canRetry` is `retry_count < max_retries - 1`. -/
def cleanPass : CleanState → Bool → CleanResult ⊕ CleanState
  | .nonText, canRetry =>
    if canRetry then .inr .nonText else .inl (.error failMsg)
  | .text t, canRetry =>
    match jsonStep t with
    | .nonStr => if canRetry then .inr .nonText else .inl (.error failMsg)
    | .text t1 =>
      let t4 := cleanSubs t1
      match reSearch fullDocPat t4 with
      | some m => cleanFinalize m.2.1 canRetry
      | none =>
        match reSearch bodyPat t4 with
        | some m => cleanFinalize m.2.1 canRetry
        | none =>
          match reSearch divPat t4 with
          | some m => cleanFinalize m.2.1 canRetry
          | none =>
            if (reSearch openHtmlPat t4).isSome || (reSearch openBodyPat t4).isSome ||
                (reSearch openDivPat t4).isSome then
              .inl (.partResult t4)
            else
              let t5 := pySub multiNlPat ['\n'] t4
              if canRetry then .inr (.text t5) else .inl (.error failMsg)

/-- The retry loop with fuel `max_retries - retry_count`; the while-guard
fall-through (fuel 0) would return Python's implicit `None`, which is
unreachable for `max_retries ≥ 1`. -/
def cleanLoopF : ℕ → CleanState → CleanResult
  | 0, _ => .pyNone
  | fuel + 1, st =>
    match cleanPass st (decide (1 ≤ fuel)) with
    | .inl r => r
    | .inr st' => cleanLoopF fuel st'

/-- `clean_html_response(html_content, previous_content, max_retries)` for a
non-`None` input string. -/
def cleanHtmlResponse (htmlContent : List Char) (previousContent : Option (List Char))
    (maxRetries : ℕ) : CleanResult :=
  cleanLoopF maxRetries (.text (stitchStep htmlContent previousContent))

/-- A well-formed document: `<html>` + body + `</html>`, the shape the spec's
round-trip property quantifies over. -/
def wellFormedDoc (b : List Char) : List Char :=
  (str "<html>") ++ (b ++ (str "</html>"))

/-- A document wrapped in a fenced code block, as an LLM response would carry
it. -/
def fenceWrap (d : List Char) : List Char :=
  (str "```html") ++ ('\n' :: (d ++ (str "\n```")))

/-- C3: evaluating the resume decisions at the failing input.  With the epub
directory and progress file present, the assembly tool reuses prior progress
both **with and without** `--resume`; the translation tool likewise reuses
progress without the flag.  The flag parsed at lines 1022 / 764-769 is never
consulted. -/
theorem resume_flag_ignored :
    assemblyResuming true true ⟨str "book.pdf", str "config.yaml", false⟩ = true ∧
    assemblyResuming true true ⟨str "book.pdf", str "config.yaml", true⟩ = true ∧
    translationResuming true ⟨str "book.epub", none, none, str "config.yaml", false⟩ = true ∧
    assemblyResuming false false ⟨str "book.pdf", str "config.yaml", true⟩ = false := by
  refine ⟨rfl, rfl, rfl, rfl⟩

/-- C9: every image selected by the chapter-image extractor has width ≥ 100 and
height ≥ 100, and does not cover more than 90% of both page dimensions. -/
theorem extract_images_filters (images : List BaseImage) (pageW pageH : ℚ)
    (imagesDir : List Char) (pageNum chapterIndex baseCounter : ℕ)
    (e : ExtractedImage)
    (he : e ∈ (extractImagesFromPdfPage images pageW pageH imagesDir pageNum
      chapterIndex baseCounter).1) :
    100 ≤ e.width ∧ 100 ≤ e.height ∧
      ¬((e.width : ℚ) > 9/10 * pageW ∧ (e.height : ℚ) > 9/10 * pageH) := by
  induction images generalizing baseCounter with
  | nil => simp [extractImagesFromPdfPage] at he
  | cons img rest ih =>
    rw [extractImagesFromPdfPage] at he
    by_cases hsmall : img.width < 100 ∨ img.height < 100
    · rw [if_pos hsmall] at he
      exact ih baseCounter he
    · rw [if_neg hsmall] at he
      by_cases hbig : (img.width : ℚ) > 9/10 * pageW ∧ (img.height : ℚ) > 9/10 * pageH
      · rw [if_pos hbig] at he
        exact ih baseCounter he
      · rw [if_neg hbig] at he
        push_neg at hsmall
        by_cases hext : asciiLower img.ext ≠ (str "jpeg") ∧ asciiLower img.ext ≠ (str "jpg")
        · rw [if_pos hext] at he
          by_cases hconv : img.convertOk
          · simp only [hconv, if_true] at he
            rcases List.mem_cons.mp he with h | h
            · subst h
              exact ⟨hsmall.1, hsmall.2, hbig⟩
            · exact ih (baseCounter + 1) h
          · simp only [hconv, if_false] at he
            exact ih baseCounter he
        · rw [if_neg hext] at he
          rcases List.mem_cons.mp he with h | h
          · subst h
            exact ⟨hsmall.1, hsmall.2, hbig⟩
          · exact ih (baseCounter + 1) h

/-- Witness for C9 at a concrete input: one 200×300 image on a 1000×1000-point
page is kept and satisfies both filters. -/
theorem extract_images_filters_witness :
    (⟨str "chapter_1_img_1.jpg", str "images/chapter_1_img_1.jpg", 0, 200, 300⟩ : ExtractedImage) ∈
      (extractImagesFromPdfPage [⟨200, 300, str "jpg", true⟩] 1000 1000 (str "images") 0 1 1).1 ∧
    (100 ≤ 200 ∧ 100 ≤ 300 ∧
      ¬((200 : ℚ) > 9/10 * 1000 ∧ (300 : ℚ) > 9/10 * 1000)) := by
  have hmem : (⟨str "chapter_1_img_1.jpg", str "images/chapter_1_img_1.jpg", 0, 200, 300⟩ :
      ExtractedImage) ∈
      (extractImagesFromPdfPage [⟨200, 300, str "jpg", true⟩] 1000 1000 (str "images") 0 1 1).1 := by
    rw [extractImagesFromPdfPage]
    norm_num
    rw [extractImagesFromPdfPage]
    simp only [str, natStr, asciiLower]
    decide
  exact ⟨hmem, extract_images_filters [⟨200, 300, str "jpg", true⟩] 1000 1000 (str "images") 0 1 1
    ⟨str "chapter_1_img_1.jpg", str "images/chapter_1_img_1.jpg", 0, 200, 300⟩ hmem⟩

theorem gcwrAux_get_shift (attempts : ℕ → AttemptOutcome α) (maxB : ℚ) :
    ∀ (j f rc : ℕ), 0 < rc →
      (∀ k, rc ≤ k → k < rc + j → (attempts k).failed = true) →
      (gcwrAux attempts maxB (j + f + 1) rc).1.get? j =
        (gcwrAux attempts maxB (f + 1) (rc + j)).1.get? 0 := by
  intro j
  induction j with
  | zero => intro f rc _ _; norm_num
  | succ j ih =>
    intro f rc hrc hfail
    have hf : (attempts rc).failed = true := hfail rc le_rfl (by omega)
    have step : (gcwrAux attempts maxB (j + 1 + f + 1) rc).1 =
        backoffTime rc maxB :: (gcwrAux attempts maxB (j + f + 1) (rc + 1)).1 := by
      have : j + 1 + f + 1 = (j + f + 1) + 1 := by omega
      rw [this]
      cases h : attempts rc with
      | raised e => simp [gcwrAux, h, hrc]
      | returned r =>
        cases r with
        | some v => rw [h] at hf; simp [AttemptOutcome.failed] at hf
        | none => simp [gcwrAux, h, hrc]
    rw [step]
    simp only [List.get?_cons_succ]
    have := ih f (rc + 1) (by omega) (fun k hk1 hk2 => hfail k (by omega) (by omega))
    rw [this, show rc + 1 + j = rc + (j + 1) from by omega]

theorem gcwrAux_head (attempts : ℕ → AttemptOutcome α) (maxB : ℚ) (f rc : ℕ)
    (hrc : 0 < rc) :
    (gcwrAux attempts maxB (f + 1) rc).1.get? 0 = some (backoffTime rc maxB) := by
  cases h : attempts rc with
  | raised e => simp [gcwrAux, h, hrc]
  | returned r =>
    cases r with
    | some v => simp [gcwrAux, h, hrc]
    | none => simp [gcwrAux, h, hrc]

/-- C4: if the first `n` attempts fail (1 ≤ n < max_retries), the backoff slept
before attempt `n+1` — the `n`-th recorded sleep — equals
`min(2^n + 0.1*n, max_backoff)`; moreover the backoff sequence is monotone in
the attempt counter and never exceeds `max_backoff`. -/
theorem backoff_formula_monotone_bounded (attempts : ℕ → AttemptOutcome α)
    (maxRetries : ℕ) (maxB : ℚ) (opName : List Char) (n : ℕ)
    (h1 : 1 ≤ n) (h2 : n < maxRetries)
    (hfail : ∀ k, k < n → (attempts k).failed = true) :
    (generateContentWithRetry attempts maxRetries maxB opName).2.get? (n - 1) =
      some (min (2 ^ n + (1/10) * (n : ℚ)) maxB) ∧
    (∀ m₁ m₂ : ℕ, m₁ ≤ m₂ → backoffTime m₁ maxB ≤ backoffTime m₂ maxB) ∧
    (∀ m : ℕ, backoffTime m maxB ≤ maxB) := by
  refine ⟨?_, ?_, fun m => min_le_right _ _⟩
  · have hM : maxRetries = (n - 1) + (maxRetries - 1 - n) + 1 + 1 := by omega
    have h0 : (attempts 0).failed = true := hfail 0 (by omega)
    have step0 : (gcwrAux attempts maxB ((n - 1) + (maxRetries - 1 - n) + 1 + 1) 0).1 =
        (gcwrAux attempts maxB ((n - 1) + (maxRetries - 1 - n) + 1) 1).1 := by
      cases h : attempts 0 with
      | raised e => simp [gcwrAux, h]
      | returned r =>
        cases r with
        | some v => rw [h] at h0; simp [AttemptOutcome.failed] at h0
        | none => simp [gcwrAux, h]
    have hshift := gcwrAux_get_shift attempts maxB (n - 1) (maxRetries - 1 - n) 1
      (by omega) (fun k hk1 hk2 => hfail k (by omega))
    show (gcwrAux attempts maxB maxRetries 0).1.get? (n - 1) = _
    rw [hM, step0, hshift, show 1 + (n - 1) = n from by omega,
      gcwrAux_head attempts maxB (maxRetries - 1 - n) n (by omega)]
    rfl
  · intro m₁ m₂ h
    unfold backoffTime
    refine min_le_min (add_le_add ?_ ?_) le_rfl
    · exact pow_le_pow_right₀ (by norm_num) h
    · have : (m₁ : ℚ) ≤ (m₂ : ℚ) := Nat.cast_le.mpr h
      nlinarith

/-- Witness for C4: three failing attempts with `max_backoff = 30`; the sleep
before attempt 3 is `min(2^2 + 0.2, 30) = 21/5`. -/
theorem backoff_formula_monotone_bounded_witness :
    (generateContentWithRetry
        (fun _ => (AttemptOutcome.raised .httpError : AttemptOutcome ℕ))
        3 30 (str "API call")).2.get? 1 = some (min (2 ^ 2 + (1/10) * (2 : ℚ)) 30) :=
  (backoff_formula_monotone_bounded (fun _ => AttemptOutcome.raised .httpError)
    3 30 (str "API call") 2 (by norm_num) (by norm_num) (fun k _ => rfl)).1

theorem gcwrAux_all_fail (attempts : ℕ → AttemptOutcome α) (maxB : ℚ) :
    ∀ (f rc : ℕ), (∀ k, rc ≤ k → k < rc + f → (attempts k).failed = true) →
      (gcwrAux attempts maxB f rc).2 = none := by
  intro f
  induction f with
  | zero => intro rc _; rfl
  | succ f ih =>
    intro rc hfail
    have h0 : (attempts rc).failed = true := hfail rc le_rfl (by omega)
    cases h : attempts rc with
    | raised e =>
      simp only [gcwrAux, h]
      exact ih (rc + 1) (fun k hk1 hk2 => hfail k (by omega) (by omega))
    | returned r =>
      cases r with
      | some v => rw [h] at h0; simp [AttemptOutcome.failed] at h0
      | none =>
        simp only [gcwrAux, h]
        exact ih (rc + 1) (fun k hk1 hk2 => hfail k (by omega) (by omega))

theorem gcwrAux_first_success (attempts : ℕ → AttemptOutcome α) (maxB : ℚ) :
    ∀ (f rc k : ℕ) (r : α), rc ≤ k → k < rc + f →
      (∀ j, rc ≤ j → j < k → (attempts j).failed = true) →
      attempts k = .returned (some r) →
      (gcwrAux attempts maxB f rc).2 = some r := by
  intro f
  induction f with
  | zero => intro rc k r h1 h2 _ _; omega
  | succ f ih =>
    intro rc k r h1 h2 hfail hk
    rcases eq_or_lt_of_le h1 with heq | hlt
    · subst heq
      simp [gcwrAux, hk]
    · have h0 : (attempts rc).failed = true := hfail rc le_rfl hlt
      cases h : attempts rc with
      | raised e =>
        simp only [gcwrAux, h]
        exact ih (rc + 1) k r (by omega) (by omega)
          (fun j hj1 hj2 => hfail j (by omega) hj2) hk
      | returned rr =>
        cases rr with
        | some v => rw [h] at h0; simp [AttemptOutcome.failed] at h0
        | none =>
          simp only [gcwrAux, h]
          exact ih (rc + 1) k r (by omega) (by omega)
            (fun j hj1 hj2 => hfail j (by omega) hj2) hk

/-- C5: every exception kind and every `None` return is retried alike; if all
`max_retries` attempts fail the invoker raises the exhaustion error naming the
operation, and if some attempt succeeds (after only failures) it returns that
response without raising. -/
theorem retry_exhaustion_and_success (attempts : ℕ → AttemptOutcome α)
    (maxRetries : ℕ) (maxB : ℚ) (opName : List Char) :
    ((∀ k, k < maxRetries → (attempts k).failed = true) →
      (generateContentWithRetry attempts maxRetries maxB opName).1 =
        .error (exhaustMsg opName maxRetries)) ∧
    (∀ k r, k < maxRetries → (∀ j, j < k → (attempts j).failed = true) →
      attempts k = .returned (some r) →
      (generateContentWithRetry attempts maxRetries maxB opName).1 = .ok r) := by
  constructor
  · intro hfail
    have := gcwrAux_all_fail attempts maxB maxRetries 0
      (fun k _ hk => hfail k (by omega))
    simp [generateContentWithRetry, this]
  · intro k r hk hfail hsucc
    have := gcwrAux_first_success attempts maxB maxRetries 0 k r (by omega)
      (by omega) (fun j _ hj => hfail j hj) hsucc
    simp [generateContentWithRetry, this]

/-- Witness for C5: attempt 1 times out (a retryable exception), attempt 2
returns a response; the invoker returns it. -/
theorem retry_exhaustion_and_success_witness :
    (generateContentWithRetry
        (fun k => if k = 0 then AttemptOutcome.raised .readTimeout
          else AttemptOutcome.returned (some 42)) 3 30 (str "API call")).1 =
      .ok 42 :=
  (retry_exhaustion_and_success
      (fun k => if k = 0 then AttemptOutcome.raised .readTimeout
        else AttemptOutcome.returned (some 42)) 3 30 (str "API call")).2 1 42
    (by norm_num) (fun j hj => by interval_cases j <;> rfl) (by rfl)

/-- C1: a chapter is skipped on resume iff its per-unit `generated` flag is
true or its 1-based index is at most the stored
`last_processed_chapter_index`; and for the 3-chapter scenario with only
chapter 2 marked generated, a re-run writes documents for chapters 1 and 3
only and leaves chapter 2's on-disk document unchanged. -/
theorem assembly_skip_iff_and_scenario :
    (∀ (p : AsmProgress) (i : ℕ), chapterProcessed p i = true ↔
      ((∃ ch ∈ p.chapters, ch.index = i ∧ ch.generated = true) ∨
        (i : Int) ≤ p.lastProcessedChapterIndex)) ∧
    (∀ (gen : ℕ → List (List Char) → List Char) (fs0 : FileSys),
      (runAssemblyChapters gen scenarioChapters 1 scenarioProgress fs0 [] []).2.2 =
        [chapterName 1, chapterName 3] ∧
      fsRead (runAssemblyChapters gen scenarioChapters 1 scenarioProgress fs0 [] []).2.1
          (chapterName 2) =
        fsRead fs0 (chapterName 2)) := by
  constructor
  · intro p i
    simp only [chapterProcessed, Bool.or_eq_true, decide_eq_true_eq,
      List.any_eq_true, Bool.and_eq_true, beq_iff_eq]
    constructor
    · rintro (h | ⟨ch, hmem, hidx, hgen⟩)
      · exact Or.inr h
      · exact Or.inl ⟨ch, hmem, hidx, hgen⟩
    · rintro (⟨ch, hmem, hidx, hgen⟩ | h)
      · exact Or.inr ⟨ch, hmem, hidx, hgen⟩
      · exact Or.inl h
  · intro gen fs0
    have h1 : chapterProcessed scenarioProgress 1 = false := by decide
    have h2 : chapterProcessed (asmAdvance scenarioProgress 1 (str "One")) 2 = true := by
      decide
    have h3 : chapterProcessed (asmAdvance scenarioProgress 1 (str "One")) 3 = false := by
      decide
    have hne12 : chapterName 1 ≠ chapterName 2 := by decide
    have hne32 : chapterName 3 ≠ chapterName 2 := by decide
    simp only [runAssemblyChapters, scenarioChapters, h1, h2, h3, if_true, if_false,
      Bool.false_eq_true, Bool.true_eq_false]
    refine ⟨rfl, ?_⟩
    simp only [fsWrite, fsRead, if_neg hne32, if_neg hne12]

theorem lastSavedAsm_of_no_save (l : List Effect) (p : AsmProgress)
    (h : ∀ q, Effect.saveAsmLedger q ∉ l) : lastSavedAsm l p = p := by
  induction l generalizing p with
  | nil => rfl
  | cons e rest ih =>
    cases e with
    | saveAsmLedger q => exact absurd (List.mem_cons_self _ _) (h q)
    | writeFile n => exact ih p (fun q hq => h q (List.mem_cons_of_mem _ hq))
    | removeFile n => exact ih p (fun q hq => h q (List.mem_cons_of_mem _ hq))
    | readFile n => exact ih p (fun q hq => h q (List.mem_cons_of_mem _ hq))
    | apiCall => exact ih p (fun q hq => h q (List.mem_cons_of_mem _ hq))
    | saveTransLedger r => exact ih p (fun q hq => h q (List.mem_cons_of_mem _ hq))

theorem no_save_in_assembly_prefix (i apiRetries : ℕ)
    (imageFiles : List (List Char)) (q : AsmProgress) :
    Effect.saveAsmLedger q ∉ assemblyUnitPrefixEffects i apiRetries imageFiles := by
  intro hmem
  simp only [assemblyUnitPrefixEffects, List.mem_append, List.mem_cons,
    List.mem_replicate, List.mem_map, List.not_mem_nil] at hmem
  rcases hmem with ((h | h | h | h) | ⟨_, h⟩) | ⟨_, _, h⟩ <;> simp at h

theorem lastSavedTrans_of_no_save (l : List Effect) (q : TransProgress)
    (h : ∀ r, Effect.saveTransLedger r ∉ l) : lastSavedTrans l q = q := by
  induction l generalizing q with
  | nil => rfl
  | cons e rest ih =>
    cases e with
    | saveTransLedger r => exact absurd (List.mem_cons_self _ _) (h r)
    | writeFile n => exact ih q (fun r hr => h r (List.mem_cons_of_mem _ hr))
    | removeFile n => exact ih q (fun r hr => h r (List.mem_cons_of_mem _ hr))
    | readFile n => exact ih q (fun r hr => h r (List.mem_cons_of_mem _ hr))
    | apiCall => exact ih q (fun r hr => h r (List.mem_cons_of_mem _ hr))
    | saveAsmLedger p => exact ih q (fun r hr => h r (List.mem_cons_of_mem _ hr))

theorem markTranslated_get? (l : List TransUnit) (j : ℕ) :
    (markTranslated l j).get? j =
      (l.get? j).map (fun u => { u with translated := true }) := by
  induction l generalizing j with
  | nil => cases j <;> rfl
  | cons u rest ih =>
    cases j with
    | zero => rfl
    | succ n => simpa [markTranslated] using ih n

theorem markHtmlTranslated_get? (l : List TransHtmlUnit) (j : ℕ) :
    (markHtmlTranslated l j).get? j =
      (l.get? j).map (fun u => { u with translated := true }) := by
  induction l generalizing j with
  | nil => cases j <;> rfl
  | cons u rest ih =>
    cases j with
    | zero => rfl
    | succ n => simpa [markHtmlTranslated] using ih n

/-- C2: in the effect sequence of one unit — an assembly chapter, a
translation chapter, or a translation additional-HTML file — the artifact
write strictly precedes the (unique) ledger save; a crash at any cut before
the save leaves the on-disk ledger equal to the pre-unit ledger, in which the
unit is still unmarked, so a resume regenerates exactly that unit; and the
post-save ledger marks the unit done. -/
theorem artifact_write_precedes_ledger_save (i apiRetries : ℕ)
    (imageFiles : List (List Char)) (p : AsmProgress) (title : List Char)
    (srcPath : List Char) (j : ℕ) (q : TransProgress)
    (htmlPath : List Char) (m : ℕ)
    (hp : chapterProcessed p i = false)
    (hq : (q.translatedChapters.get? j).map TransUnit.translated = some false)
    (hh : (q.translatedHtmlFiles.get? m).map TransHtmlUnit.translated = some false) :
    (let trace := assemblyUnitEffects i apiRetries imageFiles p title
     let iw := (assemblyUnitPrefixEffects i apiRetries imageFiles).length
     trace.get? iw = some (.writeFile (chapterName i)) ∧
     trace.get? (iw + 2) = some (.saveAsmLedger (asmAdvance p i title)) ∧
     (∀ c, c ≤ iw + 2 →
       chapterProcessed (lastSavedAsm (trace.take c) p) i = false) ∧
     chapterProcessed (asmAdvance p i title) i = true) ∧
    (let ttrace := translationUnitEffects srcPath j q
     ttrace.get? 2 = some (.writeFile srcPath) ∧
     ttrace.get? 3 = some (.saveTransLedger (transAdvance q j)) ∧
     (∀ c, c ≤ 3 →
       ((lastSavedTrans (ttrace.take c) q).translatedChapters.get? j).map
          TransUnit.translated = some false) ∧
     ((transAdvance q j).translatedChapters.get? j).map TransUnit.translated =
        some true ∧
     (transAdvance q j).lastProcessedChapterIndex = (j : Int)) ∧
    (let htrace := translationHtmlUnitEffects htmlPath m q
     htrace.get? 2 = some (.writeFile htmlPath) ∧
     htrace.get? 3 = some (.saveTransLedger (transHtmlAdvance q m)) ∧
     (∀ c, c ≤ 3 →
       ((lastSavedTrans (htrace.take c) q).translatedHtmlFiles.get? m).map
          TransHtmlUnit.translated = some false) ∧
     ((transHtmlAdvance q m).translatedHtmlFiles.get? m).map
        TransHtmlUnit.translated = some true ∧
     (transHtmlAdvance q m).lastProcessedHtmlIndex = (m : Int)) := by
  constructor
  · set pre := assemblyUnitPrefixEffects i apiRetries imageFiles with hpre
    set tail4 : List Effect := [.writeFile (chapterName i), .removeFile (tempPdfName i),
      .saveAsmLedger (asmAdvance p i title), .readFile (chapterName i)] with htail
    have htrace : assemblyUnitEffects i apiRetries imageFiles p title = pre ++ tail4 := rfl
    refine ⟨?_, ?_, ?_, ?_⟩
    · rw [htrace, List.get?_append_right le_rfl, Nat.sub_self]
      rfl
    · rw [htrace, List.get?_append_right (by omega)]
      have : pre.length + 2 - pre.length = 2 := by omega
      rw [this]
      rfl
    · intro c hc
      have hgood : (pre ++ tail4).take (pre.length + 2) =
          pre ++ [Effect.writeFile (chapterName i), Effect.removeFile (tempPdfName i)] := by
        rw [List.take_append_eq_append_take, List.take_of_length_le (by omega),
          show pre.length + 2 - pre.length = 2 from by omega, htail]
        rfl
      have htake : ((pre ++ tail4).take c) =
          ((pre ++ tail4).take (pre.length + 2)).take c := by
        rw [List.take_take, min_eq_left hc]
      have hnosave : ∀ q', Effect.saveAsmLedger q' ∉ (pre ++ tail4).take c := by
        intro q' hmem
        rw [htake, hgood] at hmem
        have hmem2 := List.take_subset _ _ hmem
        rcases List.mem_append.mp hmem2 with h | h
        · exact no_save_in_assembly_prefix i apiRetries imageFiles q' h
        · simp at h
      rw [htrace, lastSavedAsm_of_no_save _ p hnosave]
      exact hp
    · simp [chapterProcessed, asmAdvance]
  constructor
  · refine ⟨rfl, rfl, ?_, ?_, rfl⟩
    · intro c hc
      have hnosave : ∀ r, Effect.saveTransLedger r ∉
          (translationUnitEffects srcPath j q).take c := by
        intro r hmem
        have htake : (translationUnitEffects srcPath j q).take c =
            ((translationUnitEffects srcPath j q).take 3).take c := by
          rw [List.take_take, min_eq_left hc]
        rw [htake] at hmem
        have hmem2 := List.take_subset _ _ hmem
        simp [translationUnitEffects] at hmem2
      rw [lastSavedTrans_of_no_save _ q hnosave]
      exact hq
    · rw [show (transAdvance q j).translatedChapters = markTranslated q.translatedChapters j
        from rfl, markTranslated_get?]
      rcases h : q.translatedChapters.get? j with _ | u
      · rw [h] at hq; simp at hq
      · simp
  · refine ⟨rfl, rfl, ?_, ?_, rfl⟩
    · intro c hc
      have hnosave : ∀ r, Effect.saveTransLedger r ∉
          (translationHtmlUnitEffects htmlPath m q).take c := by
        intro r hmem
        have htake : (translationHtmlUnitEffects htmlPath m q).take c =
            ((translationHtmlUnitEffects htmlPath m q).take 3).take c := by
          rw [List.take_take, min_eq_left hc]
        rw [htake] at hmem
        have hmem2 := List.take_subset _ _ hmem
        simp [translationHtmlUnitEffects] at hmem2
      rw [lastSavedTrans_of_no_save _ q hnosave]
      exact hh
    · rw [show (transHtmlAdvance q m).translatedHtmlFiles =
        markHtmlTranslated q.translatedHtmlFiles m from rfl, markHtmlTranslated_get?]
      rcases h : q.translatedHtmlFiles.get? m with _ | u
      · rw [h] at hh; simp at hh
      · simp

/-- Witness for C2 at a concrete unit of each kind: an assembly chapter, a
translation chapter, and a translation additional-HTML file. -/
theorem artifact_write_precedes_ledger_save_witness :
    (assemblyUnitEffects 1 0 [] scenarioProgress (str "One")).get? 3 =
      some (.writeFile (chapterName 1)) ∧
    (assemblyUnitEffects 1 0 [] scenarioProgress (str "One")).get? 5 =
      some (.saveAsmLedger (asmAdvance scenarioProgress 1 (str "One"))) ∧
    chapterProcessed (asmAdvance scenarioProgress 1 (str "One")) 1 = true ∧
    (translationUnitEffects (str "text/chapter_1.html") 0 sampleTransProgress).get? 2 =
      some (.writeFile (str "text/chapter_1.html")) ∧
    ((transAdvance sampleTransProgress 0).translatedChapters.get? 0).map
        TransUnit.translated = some true ∧
    (translationHtmlUnitEffects (str "cover.html") 0 sampleTransProgress).get? 2 =
      some (.writeFile (str "cover.html")) ∧
    ((transHtmlAdvance sampleTransProgress 0).translatedHtmlFiles.get? 0).map
        TransHtmlUnit.translated = some true := by
  have h := artifact_write_precedes_ledger_save 1 0 [] scenarioProgress (str "One")
    (str "text/chapter_1.html") 0 sampleTransProgress (str "cover.html") 0
    (by decide) (by decide) (by decide)
  exact ⟨h.1.1, h.1.2.1, h.1.2.2.2, h.2.1.1, h.2.1.2.2.2.1, h.2.2.1, h.2.2.2.2.2.1⟩

theorem markTranslated_get?_ne (l : List TransUnit) (i k : ℕ) (h : i ≠ k) :
    (markTranslated l i).get? k = l.get? k := by
  induction l generalizing i k with
  | nil => cases i <;> rfl
  | cons u rest ih =>
    cases i with
    | zero =>
      cases k with
      | zero => exact absurd rfl h
      | succ m => rfl
    | succ n =>
      cases k with
      | zero => rfl
      | succ m => simpa [markTranslated] using ih n m (by omega)

theorem transLoop_missing_unit (exists? : List Char → Bool)
    (translate : ℕ → TransUnit → Option (List Char) → Except (List Char) (List Char))
    (prevLimit k : ℕ)
    (hok : ∀ a b c, ∃ t, translate a b c = .ok t) :
    ∀ (units : List TransUnit) (i0 : ℕ) (p : TransProgress)
      (prev : Option (List Char)) (calls : List ℕ) (writes : List (ℕ × List Char)),
      (∀ u', units.get? (k - i0) = some u' → i0 ≤ k → exists? u'.src = false) →
      (p.translatedChapters.get? k).map TransUnit.translated = some false →
      p.lastProcessedChapterIndex ≠ (k : Int) →
      k ∉ calls → (∀ w ∈ writes, w.1 ≠ k) →
      ∃ pf cs ws,
        transLoop exists? translate prevLimit units i0 p prev calls writes =
          .ok (pf, cs, ws) ∧
        (pf.translatedChapters.get? k).map TransUnit.translated = some false ∧
        pf.lastProcessedChapterIndex ≠ (k : Int) ∧ k ∉ cs ∧ (∀ w ∈ ws, w.1 ≠ k) := by
  intro units
  induction units with
  | nil =>
    intro i0 p prev calls writes _ hflag hcur hcalls hwrites
    exact ⟨p, calls.reverse, writes.reverse, rfl, hflag, hcur,
      fun hmem => hcalls (List.mem_reverse.mp hmem),
      fun w hw => hwrites w (List.mem_reverse.mp hw)⟩
  | cons u rest ih =>
    intro i0 p prev calls writes hmiss hflag hcur hcalls hwrites
    have hmiss' : ∀ u', rest.get? (k - (i0 + 1)) = some u' → i0 + 1 ≤ k →
        exists? u'.src = false := by
      intro u' hu' hle
      refine hmiss u' ?_ (by omega)
      have : k - i0 = (k - (i0 + 1)) + 1 := by omega
      rw [this]
      exact hu'
    rw [transLoop]
    by_cases hskip : ((p.translatedChapters.get? i0).map TransUnit.translated).getD false
    · rw [if_pos hskip]
      exact ih (i0 + 1) p prev calls writes hmiss' hflag hcur hcalls hwrites
    · rw [if_neg hskip]
      by_cases hex : exists? u.src
      · rw [if_pos hex]
        have hne : i0 ≠ k := by
          intro heq
          subst heq
          have := hmiss u (by simp) le_rfl
          rw [hex] at this
          exact Bool.true_eq_false.mp this
        obtain ⟨t, ht⟩ := hok i0 u prev
        rw [ht]
        have hflag' : ((transAdvance p i0).translatedChapters.get? k).map
            TransUnit.translated = some false := by
          show ((markTranslated p.translatedChapters i0).get? k).map _ = _
          rw [markTranslated_get?_ne _ _ _ hne]
          exact hflag
        have hcur' : (transAdvance p i0).lastProcessedChapterIndex ≠ (k : Int) := by
          show (i0 : Int) ≠ (k : Int)
          exact fun h => hne (Int.ofNat.inj h)
        exact ih (i0 + 1) (transAdvance p i0) _ (i0 :: calls) ((i0, t) :: writes)
          hmiss' hflag' hcur'
          (fun hmem => (List.mem_cons.mp hmem).elim (fun h => hne h.symm) hcalls)
          (fun w hw => (List.mem_cons.mp hw).elim
            (fun h => by rw [h]; exact fun hh => hne (by simpa using hh)) (hwrites w))
      · rw [if_neg hex]
        exact ih (i0 + 1) p prev calls writes hmiss' hflag hcur hcalls hwrites

/-- C10: if no file matching a chapter's source filename exists in the
translated working directory and every attempted translation succeeds, the run
completes without raising, makes no translation call for that chapter, writes
nothing for it, leaves its `translated` flag false, and never sets the
last-processed cursor to its index. -/
theorem missing_source_file_silently_skipped (exists? : List Char → Bool)
    (translate : ℕ → TransUnit → Option (List Char) → Except (List Char) (List Char))
    (prevLimit : ℕ) (p : TransProgress) (k : ℕ) (u : TransUnit)
    (hok : ∀ a b c, ∃ t, translate a b c = .ok t)
    (hstart : (p.lastProcessedChapterIndex + 1).toNat ≤ k)
    (hu : p.translatedChapters.get? k = some u)
    (hflag : u.translated = false)
    (hmiss : exists? u.src = false) :
    ∃ pf cs ws,
      translateChaptersStage exists? translate prevLimit p = .ok (pf, cs, ws) ∧
      k ∉ cs ∧ (∀ w ∈ ws, w.1 ≠ k) ∧
      (pf.translatedChapters.get? k).map TransUnit.translated = some false ∧
      pf.lastProcessedChapterIndex ≠ (k : Int) := by
  have hcur : p.lastProcessedChapterIndex ≠ (k : Int) := by
    intro heq
    rw [heq] at hstart
    have : ((k : Int) + 1).toNat = k + 1 := by omega
    omega
  have hmiss0 : ∀ u',
      (p.translatedChapters.drop (p.lastProcessedChapterIndex + 1).toNat).get?
        (k - (p.lastProcessedChapterIndex + 1).toNat) = some u' →
      (p.lastProcessedChapterIndex + 1).toNat ≤ k → exists? u'.src = false := by
    intro u' hu' _
    rw [List.get?_drop] at hu'
    have harith : (p.lastProcessedChapterIndex + 1).toNat +
        (k - (p.lastProcessedChapterIndex + 1).toNat) = k := by omega
    rw [harith, hu] at hu'
    rw [← Option.some.inj hu']
    exact hmiss
  obtain ⟨pf, cs, ws, hrun, hflag', hcur', hcalls', hwrites'⟩ :=
    transLoop_missing_unit exists? translate prevLimit k hok
      (p.translatedChapters.drop (p.lastProcessedChapterIndex + 1).toNat)
      (p.lastProcessedChapterIndex + 1).toNat p none [] []
      hmiss0 (by rw [hu]; simp [hflag]) hcur (by simp) (by simp)
  exact ⟨pf, cs, ws, hrun, hcalls', hwrites', hflag', hcur'⟩

/-- Witness for C10: with chapter 1's file missing, the stage completes
without raising. -/
theorem missing_source_file_silently_skipped_witness :
    (translateChaptersStage c10Exists c10Translate 0 c10Progress).isOk = true := by
  obtain ⟨pf, cs, ws, hrun, _⟩ := missing_source_file_silently_skipped c10Exists
    c10Translate 0 c10Progress 0 ⟨str "一", str "text/chapter_1.html", str "One", false⟩
    (fun a b c => ⟨str "<html>t</html>", rfl⟩) (by decide) (by decide) rfl (by decide)
  rw [hrun]
  rfl

theorem processTocBatch_length (batch : List TocEntry) (cleaned : List (List Char))
    (j : ℕ) : (processTocBatch batch cleaned j).length = batch.length := by
  induction batch generalizing j with
  | nil => rfl
  | cons ch rest ih => simp [processTocBatch, ih]

theorem processTocBatch_get? (batch : List TocEntry) (cleaned : List (List Char)) :
    ∀ (j m : ℕ) (ch : TocEntry), batch.get? m = some ch →
      (processTocBatch batch cleaned j).get? m =
        some (match cleaned.get? (j + m) with
          | some t => (⟨t, ch.src, ch.title⟩ : TocOut)
          | none => ⟨ch.title, ch.src, ch.title⟩) := by
  induction batch with
  | nil => intro j m ch h; simp at h
  | cons c rest ih =>
    intro j m ch h
    cases m with
    | zero =>
      rw [List.get?_cons_zero] at h
      rw [Option.some.inj h]
      rfl
    | succ m' =>
      rw [List.get?_cons_succ] at h
      show (processTocBatch rest cleaned (j + 1)).get? m' = _
      rw [ih (j + 1) m' ch h, show j + 1 + m' = j + (m' + 1) from by omega]

theorem translateTocBatches_spec (respText : ℕ → List Char) :
    ∀ (fuel : ℕ) (chs : List TocEntry) (b : ℕ), chs.length ≤ fuel →
      (translateTocBatches respText fuel chs b).length = chs.length ∧
      (∀ (k : ℕ) (ch : TocEntry), chs.get? k = some ch →
        (translateTocBatches respText fuel chs b).get? k =
          some (match (cleanedLines (respText (b + k / 10))).get? (k % 10) with
            | some t => (⟨t, ch.src, ch.title⟩ : TocOut)
            | none => ⟨ch.title, ch.src, ch.title⟩)) := by
  intro fuel
  induction fuel with
  | zero =>
    intro chs b hlen
    have : chs = [] := List.length_eq_zero.mp (by omega)
    subst this
    exact ⟨rfl, fun k ch h => by simp at h⟩
  | succ fuel ih =>
    intro chs b hlen
    cases chs with
    | nil => exact ⟨rfl, fun k ch h => by simp at h⟩
    | cons c rest =>
      have hlen10 : ((c :: rest).drop 10).length ≤ fuel := by
        simp only [List.length_drop, List.length_cons] at *
        omega
      obtain ⟨ihlen, ihget⟩ := ih ((c :: rest).drop 10) (b + 1) hlen10
      constructor
      · simp only [translateTocBatches, List.length_append, processTocBatch_length,
          ihlen, List.length_take, List.length_drop]
        simp only [List.length_cons]
        omega
      · intro k ch hch
        show (processTocBatch ((c :: rest).take 10) (cleanedLines (respText b)) 0 ++
          translateTocBatches respText fuel ((c :: rest).drop 10) (b + 1)).get? k = _
        by_cases hk : k < ((c :: rest).take 10).length
        · have hkk : k < 10 := by
            simp only [List.length_take] at hk
            omega
          have htake : ((c :: rest).take 10).get? k = some ch := by
            rw [List.get?_take hkk]
            exact hch
          rw [List.get?_append (by rw [processTocBatch_length]; exact hk),
            processTocBatch_get? _ _ 0 k ch htake,
            show (0 + k) = k from by omega,
            show k / 10 = 0 from by omega, show k % 10 = k from by omega]
          simp
        · push_neg at hk
          have h2 : k < (c :: rest).length := (List.get?_eq_some.mp hch).1
          have hklen : ((c :: rest).take 10).length = 10 := by
            rw [List.length_take] at hk ⊢
            omega
          rw [List.get?_append_right (by rw [processTocBatch_length]; omega),
            processTocBatch_length, hklen]
          have hdrop : ((c :: rest).drop 10).get? (k - 10) = some ch := by
            rw [List.get?_drop, show 10 + (k - 10) = k from by omega]
            exact hch
          rw [ihget (k - 10) ch hdrop,
            show b + 1 + (k - 10) / 10 = b + k / 10 from by omega,
            show (k - 10) % 10 = k % 10 from by omega]

/-- C8: chapter titles are translated in batches of 10; the output has one
record per input chapter, in order, preserving each chapter's source reference
and original title; entry `k` takes cleaned response line `k mod 10` of batch
`k / 10` when present and falls back verbatim to the original title when the
batch's response has fewer cleaned lines.  The embedded function is total: no
exception is raised for any response. -/
theorem toc_batch_translation_fallback (chapters : List TocEntry)
    (respText : ℕ → List Char) :
    (translateTocEntries chapters respText).length = chapters.length ∧
    (∀ (k : ℕ) (ch : TocEntry), chapters.get? k = some ch →
      (translateTocEntries chapters respText).get? k =
        some (match (cleanedLines (respText (k / 10))).get? (k % 10) with
          | some t => (⟨t, ch.src, ch.title⟩ : TocOut)
          | none => ⟨ch.title, ch.src, ch.title⟩)) := by
  have h := translateTocBatches_spec respText chapters.length chapters 0 le_rfl
  exact ⟨h.1, fun k ch hch => by
    have := h.2 k ch hch
    rwa [show (0 + k / 10) = k / 10 from by omega] at this⟩

/-- Witness for C8: two chapters, a one-line batch response; chapter 2's
record falls back verbatim to its original title. -/
theorem toc_batch_translation_fallback_witness :
    ((translateTocEntries
        [⟨str "Chapter One", str "text/chapter_1.html"⟩,
         ⟨str "Chapter Two", str "text/chapter_2.html"⟩]
        (fun _ => str "1. 第一章")).get? 1).map TocOut.title =
      some (str "Chapter Two") := by
  obtain ⟨-, h⟩ := toc_batch_translation_fallback
    [⟨str "Chapter One", str "text/chapter_1.html"⟩,
     ⟨str "Chapter Two", str "text/chapter_2.html"⟩]
    (fun _ => str "1. 第一章")
  rw [h 1 ⟨str "Chapter Two", str "text/chapter_2.html"⟩ (by rfl)]
  rfl

theorem toksSize_cons (t : Tok) (ts : List Tok) :
    toksSize (t :: ts) = tokSize t + toksSize ts := by
  simp [toksSize]

theorem matchF_congr : ∀ (f₁ : ℕ) {f₂ : ℕ} (ts : List Tok) (s : List Char),
    s.length + toksSize ts < f₁ → s.length + toksSize ts < f₂ →
    matchF f₁ ts s = matchF f₂ ts s := by
  intro f₁
  induction f₁ with
  | zero => intro f₂ ts s h1 _; omega
  | succ f₁ ih =>
    intro f₂ ts s h1 h2
    obtain ⟨f₂', rfl⟩ : ∃ g, f₂ = g + 1 := ⟨f₂ - 1, by omega⟩
    cases ts with
    | nil => rfl
    | cons t ts =>
      cases t with
      | lit l =>
        have hK : toksSize (Tok.lit l :: ts) = 1 + toksSize ts := by
          rw [toksSize_cons]; rfl
        rw [hK] at h1 h2
        simp only [matchF]
        by_cases hpre : l.isPrefixOf s
        · rw [if_pos hpre, if_pos hpre]
          refine ih ts _ ?_ ?_ <;> (rw [List.length_drop]; omega)
        · rw [if_neg hpre, if_neg hpre]
      | cls p =>
        have hK : toksSize (Tok.cls p :: ts) = 1 + toksSize ts := by
          rw [toksSize_cons]; rfl
        rw [hK] at h1 h2
        cases s with
        | nil => rfl
        | cons c cs =>
          rw [List.length_cons] at h1 h2
          simp only [matchF]
          by_cases hc : p c
          · rw [if_pos hc, if_pos hc]
            refine ih ts cs ?_ ?_ <;> omega
          · rw [if_neg hc, if_neg hc]
      | starL p =>
        have hK : toksSize (Tok.starL p :: ts) = 1 + toksSize ts := by
          rw [toksSize_cons]; rfl
        rw [hK] at h1 h2
        cases s with
        | nil =>
          simp only [matchF]
          have hb : matchF f₁ ts [] = matchF f₂' ts [] := by
            refine ih ts [] ?_ ?_ <;> (simp only [List.length_nil]; omega)
          rw [hb]
        | cons c cs =>
          rw [List.length_cons] at h1 h2
          simp only [matchF]
          have hb : matchF f₁ ts (c :: cs) = matchF f₂' ts (c :: cs) := by
            refine ih ts (c :: cs) ?_ ?_ <;> (rw [List.length_cons]; omega)
          have hs : matchF f₁ (Tok.starL p :: ts) cs = matchF f₂' (Tok.starL p :: ts) cs := by
            refine ih (Tok.starL p :: ts) cs ?_ ?_ <;> (rw [hK]; omega)
          simp only [hb, hs]
      | starG p =>
        have hK : toksSize (Tok.starG p :: ts) = 1 + toksSize ts := by
          rw [toksSize_cons]; rfl
        rw [hK] at h1 h2
        cases s with
        | nil =>
          simp only [matchF]
          have hb : matchF f₁ ts [] = matchF f₂' ts [] := by
            refine ih ts [] ?_ ?_ <;> (simp only [List.length_nil]; omega)
          rw [hb]
        | cons c cs =>
          rw [List.length_cons] at h1 h2
          simp only [matchF]
          have hb : matchF f₁ ts (c :: cs) = matchF f₂' ts (c :: cs) := by
            refine ih ts (c :: cs) ?_ ?_ <;> (rw [List.length_cons]; omega)
          have hg : matchF f₁ (Tok.starG p :: ts) cs = matchF f₂' (Tok.starG p :: ts) cs := by
            refine ih (Tok.starG p :: ts) cs ?_ ?_ <;> (rw [hK]; omega)
          simp only [hb, hg]
      | optBlock a z =>
        have hK : toksSize (Tok.optBlock a z :: ts) = 4 + toksSize ts := by
          rw [toksSize_cons]; rfl
        rw [hK] at h1 h2
        simp only [matchF]
        have hexp : toksSize (Tok.lit a :: Tok.starL anyC :: Tok.lit z :: ts) =
            3 + toksSize ts := by
          rw [toksSize_cons, toksSize_cons, toksSize_cons]
          simp [tokSize]
          omega
        have hin : matchF f₁ (Tok.lit a :: Tok.starL anyC :: Tok.lit z :: ts) s =
            matchF f₂' (Tok.lit a :: Tok.starL anyC :: Tok.lit z :: ts) s := by
          refine ih _ s ?_ ?_ <;> (rw [hexp]; omega)
        have hout : matchF f₁ ts s = matchF f₂' ts s := by
          refine ih ts s ?_ ?_ <;> omega
        simp only [hin, hout]
      | endA =>
        have hK : toksSize (Tok.endA :: ts) = 1 + toksSize ts := by
          rw [toksSize_cons]; rfl
        rw [hK] at h1 h2
        simp only [matchF]
        by_cases he : s = [] ∨ s = ['\n']
        · rw [if_pos he, if_pos he]
          refine ih ts s ?_ ?_ <;> omega
        · rw [if_neg he, if_neg he]

theorem matchToks_nil (s : List Char) : matchToks [] s = some s := by
  simp only [matchToks, matchF]

theorem matchToks_lit (l : List Char) (ts : List Tok) (s : List Char) :
    matchToks (Tok.lit l :: ts) s =
      if l.isPrefixOf s then matchToks ts (s.drop l.length) else none := by
  simp only [matchToks, matchF]
  by_cases hpre : l.isPrefixOf s
  · rw [if_pos hpre, if_pos hpre]
    refine matchF_congr _ ts _ ?_ ?_ <;>
      (simp only [toksSize_cons, tokSize, List.length_drop]; omega)
  · rw [if_neg hpre, if_neg hpre]

theorem matchF_toks (f : ℕ) (ts : List Tok) (s : List Char)
    (h : s.length + toksSize ts < f) : matchF f ts s = matchToks ts s :=
  matchF_congr f ts s h (Nat.lt_succ_self _)

theorem matchToks_cls (p : Char → Bool) (ts : List Tok) (s : List Char) :
    matchToks (Tok.cls p :: ts) s =
      (match s with
       | c :: cs => if p c then matchToks ts cs else none
       | [] => none) := by
  rcases s with _ | ⟨c, cs⟩
  · rfl
  · have h1 : matchF ((c :: cs).length + toksSize (Tok.cls p :: ts)) ts cs =
        matchToks ts cs := by
      refine matchF_toks _ ts cs ?_
      simp only [toksSize_cons, tokSize, List.length_cons]
      omega
    show (if p c then matchF ((c :: cs).length + toksSize (Tok.cls p :: ts)) ts cs
      else none) = (if p c then matchToks ts cs else none)
    rw [h1]

theorem matchToks_starL (p : Char → Bool) (ts : List Tok) (s : List Char) :
    matchToks (Tok.starL p :: ts) s =
      (matchToks ts s).orElse (fun _ =>
        match s with
        | c :: cs => if p c then matchToks (Tok.starL p :: ts) cs else none
        | [] => none) := by
  rcases s with _ | ⟨c, cs⟩
  · have h1 : matchF (([] : List Char).length + toksSize (Tok.starL p :: ts)) ts [] =
        matchToks ts [] := by
      refine matchF_toks _ ts [] ?_
      simp only [toksSize_cons, tokSize, List.length_nil]
      omega
    show (matchF (([] : List Char).length + toksSize (Tok.starL p :: ts)) ts []).orElse
        (fun _ => none) = (matchToks ts []).orElse (fun _ => none)
    rw [h1]
  · have h1 : matchF ((c :: cs).length + toksSize (Tok.starL p :: ts)) ts (c :: cs) =
        matchToks ts (c :: cs) := by
      refine matchF_toks _ ts (c :: cs) ?_
      simp only [toksSize_cons, tokSize, List.length_cons]
      omega
    have h2 : matchF ((c :: cs).length + toksSize (Tok.starL p :: ts))
          (Tok.starL p :: ts) cs = matchToks (Tok.starL p :: ts) cs := by
      refine matchF_toks _ (Tok.starL p :: ts) cs ?_
      simp only [toksSize_cons, tokSize, List.length_cons]
      omega
    show (matchF ((c :: cs).length + toksSize (Tok.starL p :: ts)) ts (c :: cs)).orElse
        (fun _ => if p c then matchF ((c :: cs).length + toksSize (Tok.starL p :: ts))
          (Tok.starL p :: ts) cs else none) =
      (matchToks ts (c :: cs)).orElse
        (fun _ => if p c then matchToks (Tok.starL p :: ts) cs else none)
    simp only [h1, h2]

theorem matchToks_starG (p : Char → Bool) (ts : List Tok) (s : List Char) :
    matchToks (Tok.starG p :: ts) s =
      (match s with
       | c :: cs =>
         if p c then (matchToks (Tok.starG p :: ts) cs).orElse
             (fun _ => matchToks ts (c :: cs))
         else matchToks ts (c :: cs)
       | [] => matchToks ts []) := by
  rcases s with _ | ⟨c, cs⟩
  · show matchF (([] : List Char).length + toksSize (Tok.starG p :: ts)) ts [] =
      matchToks ts []
    refine matchF_toks _ ts [] ?_
    simp only [toksSize_cons, tokSize, List.length_nil]
    omega
  · have h1 : matchF ((c :: cs).length + toksSize (Tok.starG p :: ts)) ts (c :: cs) =
        matchToks ts (c :: cs) := by
      refine matchF_toks _ ts (c :: cs) ?_
      simp only [toksSize_cons, tokSize, List.length_cons]
      omega
    have h2 : matchF ((c :: cs).length + toksSize (Tok.starG p :: ts))
          (Tok.starG p :: ts) cs = matchToks (Tok.starG p :: ts) cs := by
      refine matchF_toks _ (Tok.starG p :: ts) cs ?_
      simp only [toksSize_cons, tokSize, List.length_cons]
      omega
    show (if p c then (matchF ((c :: cs).length + toksSize (Tok.starG p :: ts))
          (Tok.starG p :: ts) cs).orElse
          (fun _ => matchF ((c :: cs).length + toksSize (Tok.starG p :: ts)) ts (c :: cs))
        else matchF ((c :: cs).length + toksSize (Tok.starG p :: ts)) ts (c :: cs)) =
      (if p c then (matchToks (Tok.starG p :: ts) cs).orElse
          (fun _ => matchToks ts (c :: cs))
        else matchToks ts (c :: cs))
    simp only [h1, h2]

theorem matchToks_optBlock (a z : List Char) (ts : List Tok) (s : List Char) :
    matchToks (Tok.optBlock a z :: ts) s =
      (matchToks (Tok.lit a :: Tok.starL anyC :: Tok.lit z :: ts) s).orElse
        (fun _ => matchToks ts s) := by
  have h1 : matchF (s.length + toksSize (Tok.optBlock a z :: ts))
        (Tok.lit a :: Tok.starL anyC :: Tok.lit z :: ts) s =
      matchToks (Tok.lit a :: Tok.starL anyC :: Tok.lit z :: ts) s := by
    refine matchF_toks _ _ s ?_
    simp only [toksSize_cons, tokSize]
    omega
  have h2 : matchF (s.length + toksSize (Tok.optBlock a z :: ts)) ts s =
      matchToks ts s := by
    refine matchF_toks _ ts s ?_
    simp only [toksSize_cons, tokSize]
    omega
  show (matchF (s.length + toksSize (Tok.optBlock a z :: ts))
        (Tok.lit a :: Tok.starL anyC :: Tok.lit z :: ts) s).orElse
      (fun _ => matchF (s.length + toksSize (Tok.optBlock a z :: ts)) ts s) =
    (matchToks (Tok.lit a :: Tok.starL anyC :: Tok.lit z :: ts) s).orElse
      (fun _ => matchToks ts s)
  simp only [h1, h2]

theorem matchToks_endA (ts : List Tok) (s : List Char) :
    matchToks (Tok.endA :: ts) s =
      if s = [] ∨ s = ['\n'] then matchToks ts s else none := by
  have h1 : matchF (s.length + toksSize (Tok.endA :: ts)) ts s = matchToks ts s := by
    refine matchF_toks _ ts s ?_
    simp only [toksSize_cons, tokSize]
    omega
  show (if s = [] ∨ s = ['\n'] then
      matchF (s.length + toksSize (Tok.endA :: ts)) ts s else none) =
    (if s = [] ∨ s = ['\n'] then matchToks ts s else none)
  rw [h1]

theorem matchF_suffix : ∀ (f : ℕ) (ts : List Tok) (s rem : List Char),
    matchF f ts s = some rem → rem <:+ s := by
  intro f
  induction f with
  | zero => intro ts s rem h; simp [matchF] at h
  | succ f ih =>
    intro ts s rem h
    cases ts with
    | nil =>
      simp only [matchF, Option.some.injEq] at h
      rw [← h]
    | cons t ts =>
      cases t with
      | lit l =>
        simp only [matchF] at h
        by_cases hpre : l.isPrefixOf s
        · rw [if_pos hpre] at h
          exact (ih ts _ rem h).trans (List.drop_suffix _ _)
        · rw [if_neg hpre] at h
          simp at h
      | cls p =>
        rcases s with _ | ⟨c, cs⟩
        · simp [matchF] at h
        · simp only [matchF] at h
          by_cases hc : p c
          · rw [if_pos hc] at h
            exact (ih ts cs rem h).trans (List.suffix_cons c cs)
          · rw [if_neg hc] at h
            simp at h
      | starL p =>
        simp only [matchF] at h
        rcases ho : matchF f ts s with _ | r
        · rw [ho] at h
          simp only [Option.orElse] at h
          rcases s with _ | ⟨c, cs⟩
          · simp at h
          · have h' : (if p c then matchF f (Tok.starL p :: ts) cs else none) =
                some rem := h
            by_cases hc : p c
            · rw [if_pos hc] at h'
              exact (ih (Tok.starL p :: ts) cs rem h').trans (List.suffix_cons c cs)
            · rw [if_neg hc] at h'
              simp at h'
        · rw [ho] at h
          simp only [Option.orElse, Option.some.injEq] at h
          rw [← h]
          exact ih ts s r ho
      | starG p =>
        rcases s with _ | ⟨c, cs⟩
        · simp only [matchF] at h
          exact ih ts [] rem h
        · simp only [matchF] at h
          by_cases hc : p c
          · rw [if_pos hc] at h
            rcases ho : matchF f (Tok.starG p :: ts) cs with _ | r
            · rw [ho] at h
              simp only [Option.orElse] at h
              exact ih ts (c :: cs) rem h
            · rw [ho] at h
              simp only [Option.orElse, Option.some.injEq] at h
              rw [← h]
              exact (ih (Tok.starG p :: ts) cs r ho).trans (List.suffix_cons c cs)
          · rw [if_neg hc] at h
            exact ih ts (c :: cs) rem h
      | optBlock a z =>
        simp only [matchF] at h
        rcases ho : matchF f (Tok.lit a :: Tok.starL anyC :: Tok.lit z :: ts) s with _ | r
        · rw [ho] at h
          simp only [Option.orElse] at h
          exact ih ts s rem h
        · rw [ho] at h
          simp only [Option.orElse, Option.some.injEq] at h
          rw [← h]
          exact ih _ s r ho
      | endA =>
        simp only [matchF] at h
        by_cases he : s = [] ∨ s = ['\n']
        · rw [if_pos he] at h
          exact ih ts s rem h
        · rw [if_neg he] at h
          simp at h

theorem matchToks_suffix (ts : List Tok) (s rem : List Char)
    (h : matchToks ts s = some rem) : rem <:+ s :=
  matchF_suffix _ ts s rem h

theorem reSearch_some (pat : List Tok) (s rem : List Char)
    (hm : matchToks pat s = some rem) :
    reSearch pat s = some ([], s.take (s.length - rem.length), rem) := by
  show reSearchF (s.length + 1) pat s = _
  simp only [reSearchF, hm]

theorem reSearch_none_nil (pat : List Tok) (hm : matchToks pat [] = none) :
    reSearch pat [] = none := by
  show reSearchF 1 pat [] = none
  simp only [reSearchF, hm]

theorem reSearch_none_cons (pat : List Tok) (c : Char) (cs : List Char)
    (hm : matchToks pat (c :: cs) = none) :
    reSearch pat (c :: cs) =
      (reSearch pat cs).map (fun r => (c :: r.1, r.2.1, r.2.2)) := by
  show reSearchF ((c :: cs).length + 1) pat (c :: cs) = _
  simp only [reSearchF, hm]
  rfl

theorem pySubF_congr : ∀ (f₁ : ℕ) {f₂ : ℕ} (pat : List Tok) (repl s : List Char),
    s.length < f₁ → s.length < f₂ → pySubF f₁ pat repl s = pySubF f₂ pat repl s := by
  intro f₁
  induction f₁ with
  | zero => intro f₂ pat repl s h1 _; omega
  | succ f₁ ih =>
    intro f₂ pat repl s h1 h2
    obtain ⟨f₂', rfl⟩ : ∃ g, f₂ = g + 1 := ⟨f₂ - 1, by omega⟩
    rcases s with _ | ⟨c, cs⟩
    · rfl
    · rw [List.length_cons] at h1 h2
      simp only [pySubF]
      rcases hm : matchToks pat (c :: cs) with _ | rem
      · simp only [hm]
        have hc : pySubF f₁ pat repl cs = pySubF f₂' pat repl cs :=
          ih pat repl cs (by omega) (by omega)
        rw [hc]
      · simp only [hm]
        have hsuf := matchToks_suffix pat (c :: cs) rem hm
        have hlen : rem.length ≤ cs.length + 1 := by
          have := hsuf.length_le
          simpa using this
        by_cases hlt : rem.length < (c :: cs).length
        · rw [if_pos hlt, if_pos hlt]
          have : pySubF f₁ pat repl rem = pySubF f₂' pat repl rem := by
            refine ih pat repl rem ?_ ?_ <;>
              (simp only [List.length_cons] at hlt; omega)
          rw [this]
        · rw [if_neg hlt, if_neg hlt]
          have : pySubF f₁ pat repl cs = pySubF f₂' pat repl cs :=
            ih pat repl cs (by omega) (by omega)
          rw [this]

theorem pySub_nil (pat : List Tok) (repl : List Char) : pySub pat repl [] = [] := rfl

theorem pySub_match (pat : List Tok) (repl : List Char) (c : Char) (cs rem : List Char)
    (hm : matchToks pat (c :: cs) = some rem) (hlt : rem.length < (c :: cs).length) :
    pySub pat repl (c :: cs) = repl ++ pySub pat repl rem := by
  show pySubF ((c :: cs).length + 1) pat repl (c :: cs) = _
  simp only [pySubF, hm, if_pos hlt]
  have : pySubF ((c :: cs).length) pat repl rem = pySubF (rem.length + 1) pat repl rem := by
    refine pySubF_congr _ pat repl rem ?_ ?_ <;>
      (simp only [List.length_cons] at hlt ⊢; omega)
  rw [this]
  rfl

theorem pySub_nomatch (pat : List Tok) (repl : List Char) (c : Char) (cs : List Char)
    (hm : matchToks pat (c :: cs) = none) :
    pySub pat repl (c :: cs) = c :: pySub pat repl cs := by
  show pySubF ((c :: cs).length + 1) pat repl (c :: cs) = _
  simp only [pySubF, hm]
  rfl

theorem jsonStep_head_lt (rest : List Char) :
    jsonStep ('<' :: rest) = .text ('<' :: rest) := rfl

theorem jsonStep_head_bt (rest : List Char) :
    jsonStep ('`' :: rest) = .text ('`' :: rest) := rfl

theorem matchF_keeps_lit : ∀ (f : ℕ) (ts : List Tok) (s rem : List Char),
    matchF f ts s = some rem → ∀ l, Tok.lit l ∈ ts →
    ∃ pre post, s = pre ++ l ++ post ∧ rem <:+ post := by
  intro f
  induction f with
  | zero => intro ts s rem h; simp [matchF] at h
  | succ f ih =>
    intro ts s rem h l hl
    cases ts with
    | nil => simp at hl
    | cons t ts =>
      cases t with
      | lit l' =>
        simp only [matchF] at h
        by_cases hpre : l'.isPrefixOf s
        · rw [if_pos hpre] at h
          obtain ⟨t0, ht⟩ := List.isPrefixOf_iff_prefix.mp hpre
          have hdrop : s.drop l'.length = t0 := by rw [← ht, List.drop_left]
          rcases List.mem_cons.mp hl with heq | hmem
          · have hle : l = l' := by injection heq
            subst hle
            refine ⟨[], t0, by rw [← ht]; rfl, ?_⟩
            have := matchF_suffix f ts _ rem h
            rwa [hdrop] at this
          · obtain ⟨pre', post', hs', hrem'⟩ := ih ts (s.drop l'.length) rem h l hmem
            rw [hdrop] at hs'
            refine ⟨l' ++ pre', post', ?_, hrem'⟩
            rw [← ht, hs']
            simp [List.append_assoc]
        · rw [if_neg hpre] at h
          simp at h
      | cls p =>
        rcases s with _ | ⟨c, cs⟩
        · simp [matchF] at h
        · simp only [matchF] at h
          by_cases hc : p c
          · rw [if_pos hc] at h
            rcases List.mem_cons.mp hl with heq | hmem
            · exact absurd heq (by simp)
            · obtain ⟨pre', post', hs', hrem'⟩ := ih ts cs rem h l hmem
              exact ⟨c :: pre', post', by rw [hs']; rfl, hrem'⟩
          · rw [if_neg hc] at h
            simp at h
      | starL p =>
        have hmem : Tok.lit l ∈ ts := by
          rcases List.mem_cons.mp hl with heq | hmem
          · exact absurd heq (by simp)
          · exact hmem
        simp only [matchF] at h
        rcases ho : matchF f ts s with _ | r
        · rw [ho] at h
          simp only [Option.orElse] at h
          rcases s with _ | ⟨c, cs⟩
          · simp at h
          · have h' : (if p c then matchF f (Tok.starL p :: ts) cs else none) =
                some rem := h
            by_cases hc : p c
            · rw [if_pos hc] at h'
              obtain ⟨pre', post', hs', hrem'⟩ := ih (Tok.starL p :: ts) cs rem h' l hl
              exact ⟨c :: pre', post', by rw [hs']; rfl, hrem'⟩
            · rw [if_neg hc] at h'
              simp at h'
        · rw [ho] at h
          simp only [Option.orElse, Option.some.injEq] at h
          subst h
          exact ih ts s r ho l hmem
      | starG p =>
        have hmem : Tok.lit l ∈ ts := by
          rcases List.mem_cons.mp hl with heq | hmem
          · exact absurd heq (by simp)
          · exact hmem
        rcases s with _ | ⟨c, cs⟩
        · simp only [matchF] at h
          exact ih ts [] rem h l hmem
        · simp only [matchF] at h
          by_cases hc : p c
          · rw [if_pos hc] at h
            rcases ho : matchF f (Tok.starG p :: ts) cs with _ | r
            · rw [ho] at h
              simp only [Option.orElse] at h
              exact ih ts (c :: cs) rem h l hmem
            · rw [ho] at h
              simp only [Option.orElse, Option.some.injEq] at h
              subst h
              obtain ⟨pre', post', hs', hrem'⟩ := ih (Tok.starG p :: ts) cs r ho l hl
              exact ⟨c :: pre', post', by rw [hs']; rfl, hrem'⟩
          · rw [if_neg hc] at h
            exact ih ts (c :: cs) rem h l hmem
      | optBlock a z =>
        have hmem : Tok.lit l ∈ ts := by
          rcases List.mem_cons.mp hl with heq | hmem
          · exact absurd heq (by simp)
          · exact hmem
        simp only [matchF] at h
        rcases ho : matchF f (Tok.lit a :: Tok.starL anyC :: Tok.lit z :: ts) s with _ | r
        · rw [ho] at h
          simp only [Option.orElse] at h
          exact ih ts s rem h l hmem
        · rw [ho] at h
          simp only [Option.orElse, Option.some.injEq] at h
          subst h
          exact ih _ s r ho l (by
            exact List.mem_cons_of_mem _ (List.mem_cons_of_mem _ (List.mem_cons_of_mem _ hmem)))
      | endA =>
        have hmem : Tok.lit l ∈ ts := by
          rcases List.mem_cons.mp hl with heq | hmem
          · exact absurd heq (by simp)
          · exact hmem
        simp only [matchF] at h
        by_cases he : s = [] ∨ s = ['\n']
        · rw [if_pos he] at h
          exact ih ts s rem h l hmem
        · rw [if_neg he] at h
          simp at h

theorem reSearch_spec (pat : List Tok) : ∀ (s pre m rem : List Char),
    reSearch pat s = some (pre, m, rem) →
    s = pre ++ m ++ rem ∧ matchToks pat (m ++ rem) = some rem := by
  intro s
  induction s with
  | nil =>
    intro pre m rem h
    rcases hm : matchToks pat [] with _ | r
    · rw [reSearch_none_nil pat hm] at h
      simp at h
    · have hr : r = [] := List.suffix_nil.mp (matchToks_suffix pat [] r hm)
      subst hr
      rw [reSearch_some pat [] [] hm] at h
      have h2 : ((([] : List Char), ([] : List Char).take
          (([] : List Char).length - ([] : List Char).length), ([] : List Char))) =
          (pre, m, rem) := Option.some.inj h
      simp only [Prod.mk.injEq, List.take_nil] at h2
      obtain ⟨rfl, rfl, rfl⟩ := h2
      exact ⟨rfl, hm⟩
  | cons c cs ih =>
    intro pre m rem h
    rcases hm : matchToks pat (c :: cs) with _ | r
    · rw [reSearch_none_cons pat c cs hm] at h
      rcases hin : reSearch pat cs with _ | ⟨⟨pre', m', rem'⟩⟩
      · rw [hin] at h
        simp at h
      · rw [hin] at h
        have h2 : ((c :: pre', m', rem') : List Char × List Char × List Char) =
            (pre, m, rem) := Option.some.inj h
        simp only [Prod.mk.injEq] at h2
        obtain ⟨rfl, rfl, rfl⟩ := h2
        obtain ⟨hd, hmt⟩ := ih pre' m' rem' hin
        exact ⟨by rw [List.cons_append, List.cons_append, ← hd], hmt⟩
    · obtain ⟨t0, ht0⟩ := matchToks_suffix pat (c :: cs) r hm
      rw [reSearch_some pat (c :: cs) r hm] at h
      have htake : (c :: cs).take ((c :: cs).length - r.length) = t0 := by
        rw [← ht0, List.length_append,
          show t0.length + r.length - r.length = t0.length from by omega,
          List.take_left]
      rw [htake] at h
      simp only [Option.some.injEq, Prod.mk.injEq] at h
      obtain ⟨h1, h2, h3⟩ := h
      subst h1; subst h2; subst h3
      constructor
      · rw [List.nil_append, ht0]
      · rw [ht0]
        exact hm

theorem pyStrip_ne_nil {m : List Char} {c : Char} (hc : c ∈ m) (hw : pyWs c = false) :
    pyStrip m ≠ [] := by
  intro h
  unfold pyStrip at h
  rw [List.reverse_eq_nil_iff, List.dropWhile_eq_nil_iff] at h
  have hall : ∀ x ∈ m.dropWhile pyWs, pyWs x = true :=
    fun x hx => h x (List.mem_reverse.mpr hx)
  rw [← List.takeWhile_append_dropWhile pyWs m] at hc
  rcases List.mem_append.mp hc with h1 | h2
  · rw [List.mem_takeWhile_imp h1] at hw
    exact Bool.true_eq_false.mp hw
  · rw [hall c h2] at hw
    exact Bool.true_eq_false.mp hw

/-- Whatever `re.search` matches for a pattern containing a required literal
contains that literal, so its `strip()` is non-empty whenever the literal has
a non-whitespace character. -/
theorem reSearch_match_strip_ne_nil (pat : List Tok) (l : List Char)
    (hlit : Tok.lit l ∈ pat) (c : Char) (hcl : c ∈ l) (hw : pyWs c = false)
    (s pre m rem : List Char) (h : reSearch pat s = some (pre, m, rem)) :
    pyStrip m ≠ [] := by
  obtain ⟨_, hmatch⟩ := reSearch_spec pat s pre m rem h
  obtain ⟨p2, post, hs, hrem⟩ := matchF_keeps_lit _ pat (m ++ rem) rem hmatch l hlit
  obtain ⟨mid, hmid⟩ := hrem
  have hm : m = p2 ++ l ++ mid := by
    have hq : m ++ rem = (p2 ++ l ++ mid) ++ rem := by
      rw [hs, ← hmid]
      simp [List.append_assoc]
    exact List.append_cancel_right hq
  refine pyStrip_ne_nil ?_ hw
  rw [hm]
  simp only [List.mem_append]
  exact Or.inl (Or.inr hcl)

/-- C7: for every input (with any `previous_partial` and any string working
text after the JSON step), the sanitizer tries the full-document pattern, then
the body pattern, then the div pattern, in that order, returning the stripped
first match; if none matches but an opening `<html…>`, `<body…>` or `<div…>`
tag is present, it returns the partial signal carrying the accumulated text
instead of raising. -/
theorem sanitizer_priority_and_partial (raw : List Char) (prev : Option (List Char))
    (maxR : ℕ) (hmr : 0 < maxR) (t1 : List Char)
    (hjson : jsonStep (stitchStep raw prev) = .text t1) :
    (∀ pre m rem, reSearch fullDocPat (cleanSubs t1) = some (pre, m, rem) →
      cleanHtmlResponse raw prev maxR = .cleaned (pyStrip m)) ∧
    (reSearch fullDocPat (cleanSubs t1) = none →
      ∀ pre m rem, reSearch bodyPat (cleanSubs t1) = some (pre, m, rem) →
        cleanHtmlResponse raw prev maxR = .cleaned (pyStrip m)) ∧
    (reSearch fullDocPat (cleanSubs t1) = none →
      reSearch bodyPat (cleanSubs t1) = none →
      ∀ pre m rem, reSearch divPat (cleanSubs t1) = some (pre, m, rem) →
        cleanHtmlResponse raw prev maxR = .cleaned (pyStrip m)) ∧
    (reSearch fullDocPat (cleanSubs t1) = none →
      reSearch bodyPat (cleanSubs t1) = none →
      reSearch divPat (cleanSubs t1) = none →
      ((reSearch openHtmlPat (cleanSubs t1)).isSome ||
        (reSearch openBodyPat (cleanSubs t1)).isSome ||
        (reSearch openDivPat (cleanSubs t1)).isSome) = true →
      cleanHtmlResponse raw prev maxR = .partResult (cleanSubs t1)) := by
  obtain ⟨f, rfl⟩ : ∃ g, maxR = g + 1 := ⟨maxR - 1, by omega⟩
  have hpass : ∀ cr : Bool, cleanPass (.text (stitchStep raw prev)) cr =
      (match reSearch fullDocPat (cleanSubs t1) with
       | some m => cleanFinalize m.2.1 cr
       | none =>
         match reSearch bodyPat (cleanSubs t1) with
         | some m => cleanFinalize m.2.1 cr
         | none =>
           match reSearch divPat (cleanSubs t1) with
           | some m => cleanFinalize m.2.1 cr
           | none =>
             if (reSearch openHtmlPat (cleanSubs t1)).isSome ||
                 (reSearch openBodyPat (cleanSubs t1)).isSome ||
                 (reSearch openDivPat (cleanSubs t1)).isSome then
               .inl (.partResult (cleanSubs t1))
             else
               if cr then .inr (.text (pySub multiNlPat ['\n'] (cleanSubs t1)))
               else .inl (.error failMsg)) := by
    intro cr
    simp only [cleanPass, hjson]
  refine ⟨?_, ?_, ?_, ?_⟩
  · intro pre m rem hfull
    have hne : pyStrip m ≠ [] :=
      reSearch_match_strip_ne_nil fullDocPat (str "<html")
        (List.mem_cons_of_mem _ (List.mem_cons_of_mem _ (List.mem_cons_self _ _)))
        '<' (by decide) (by decide) _ pre m rem hfull
    show cleanLoopF (f + 1) (.text (stitchStep raw prev)) = _
    simp only [cleanLoopF, hpass, hfull, cleanFinalize, if_neg hne]
  · intro hfull pre m rem hbody
    have hne : pyStrip m ≠ [] :=
      reSearch_match_strip_ne_nil bodyPat (str "<body")
        (List.mem_cons_self _ _) '<' (by decide) (by decide) _ pre m rem hbody
    show cleanLoopF (f + 1) (.text (stitchStep raw prev)) = _
    simp only [cleanLoopF, hpass, hfull, hbody, cleanFinalize, if_neg hne]
  · intro hfull hbody pre m rem hdiv
    have hne : pyStrip m ≠ [] :=
      reSearch_match_strip_ne_nil divPat (str "<div")
        (List.mem_cons_self _ _) '<' (by decide) (by decide) _ pre m rem hdiv
    show cleanLoopF (f + 1) (.text (stitchStep raw prev)) = _
    simp only [cleanLoopF, hpass, hfull, hbody, hdiv, cleanFinalize, if_neg hne]
  · intro hfull hbody hdiv hopen
    show cleanLoopF (f + 1) (.text (stitchStep raw prev)) = _
    simp only [cleanLoopF, hpass, hfull, hbody, hdiv, if_pos hopen]

/-- Witness for C7: a div-only response takes the third pattern and is
returned stripped. -/
theorem sanitizer_priority_and_partial_witness :
    cleanHtmlResponse (str "junk <div>hi</div> tail") none 3 =
      .cleaned (pyStrip (str "<div>hi</div>")) := by
  have h := sanitizer_priority_and_partial (str "junk <div>hi</div> tail") none 3
    (by norm_num) (str "junk <div>hi</div> tail") (by decide)
  exact h.2.2.1 (by decide) (by decide) (str "junk ") (str "<div>hi</div>")
    (str " tail") (by decide)

/-! ### Helper lemmas for the sanitizer round-trip (C6) -/

theorem isPrefixOf_trans {a b c : List Char} (h1 : a.isPrefixOf b = true)
    (h2 : b.isPrefixOf c = true) : a.isPrefixOf c = true := by
  rw [List.isPrefixOf_iff_prefix] at *
  exact h1.trans h2

theorem isPrefixOf_append_split (n : List Char) : ∀ (x t : List Char),
    n.isPrefixOf (x ++ t) = true →
    (n.length ≤ x.length ∧ n.isPrefixOf x = true) ∨
    (x.length < n.length ∧ x.isPrefixOf n = true ∧
      (n.drop x.length).isPrefixOf t = true) := by
  induction n with
  | nil => intro x t _; left; simp
  | cons a n' ih =>
    intro x t h
    cases x with
    | nil =>
      right
      refine ⟨by simp, by simp, ?_⟩
      simpa using h
    | cons c x' =>
      rw [List.cons_append, List.isPrefixOf_cons₂, Bool.and_eq_true] at h
      obtain ⟨hac, hrest⟩ := h
      have hac' : a = c := by simpa using hac
      subst hac'
      rcases ih x' t hrest with ⟨hl, hp⟩ | ⟨hl, hp, hq⟩
      · left
        refine ⟨by simp only [List.length_cons]; omega, ?_⟩
        rw [List.isPrefixOf_cons₂, Bool.and_eq_true]
        exact ⟨by simp, hp⟩
      · right
        refine ⟨by simp only [List.length_cons]; omega, ?_, by simpa using hq⟩
        rw [List.isPrefixOf_cons₂, Bool.and_eq_true]
        exact ⟨by simp, hp⟩

theorem isPrefixOf_append_stable (n : List Char) : ∀ (x t : List Char),
    n.length ≤ x.length → n.isPrefixOf (x ++ t) = n.isPrefixOf x := by
  induction n with
  | nil => intro x t _; simp
  | cons a n' ih =>
    intro x t hlen
    cases x with
    | nil => simp at hlen
    | cons c x' =>
      rw [List.cons_append]
      simp only [List.isPrefixOf_cons₂]
      rw [ih x' t (by simp only [List.length_cons] at hlen; omega)]

theorem containsSub_of_prefix_drop (n : List Char) (hn : n ≠ []) :
    ∀ (s : List Char) (i : ℕ), n.isPrefixOf (s.drop i) = true →
    containsSub n s = true := by
  intro s
  induction s with
  | nil =>
    intro i h
    rw [List.drop_nil] at h
    cases n with
    | nil => exact absurd rfl hn
    | cons a n' => simp [List.isPrefixOf] at h
  | cons c cs ih =>
    intro i h
    cases i with
    | zero =>
      rw [List.drop_zero] at h
      show (n.isPrefixOf (c :: cs) || containsSub n cs) = true
      rw [h, Bool.true_or]
    | succ j =>
      rw [List.drop_succ_cons] at h
      show (n.isPrefixOf (c :: cs) || containsSub n cs) = true
      rw [ih j h, Bool.or_true]

theorem no_prefix_drop_of_not_contains (n s : List Char)
    (h : containsSub n s = false) : ∀ i, n.isPrefixOf (s.drop i) = false := by
  intro i
  by_contra hne
  have : n.isPrefixOf (s.drop i) = true := by
    cases hb : n.isPrefixOf (s.drop i)
    · exact absurd hb hne
    · rfl
  have hn : n ≠ [] := by
    intro hnil
    subst hnil
    cases s with
    | nil => simp [containsSub] at h
    | cons c cs =>
      rw [show containsSub [] (c :: cs) =
        (([] : List Char).isPrefixOf (c :: cs) || containsSub [] cs) from rfl] at h
      simp [List.isPrefixOf] at h
  rw [containsSub_of_prefix_drop n hn s i this] at h
  exact Bool.true_eq_false.mp h

theorem containsSub_append_right (n x : List Char) : ∀ (pre : List Char),
    containsSub n x = true → containsSub n (pre ++ x) = true := by
  intro pre
  induction pre with
  | nil => intro h; simpa using h
  | cons c cs ih =>
    intro h
    have hstep : containsSub n (c :: (cs ++ x)) =
        (n.isPrefixOf (c :: (cs ++ x)) || containsSub n (cs ++ x)) := rfl
    rw [List.cons_append, hstep, ih h, Bool.or_true]

/-- `re.sub` leaves an appended block untouched when the pattern's leading
literal matches at no position inside it. -/
theorem pySub_append_no_match (l0 : List Char) (ts0 : List Tok) (repl : List Char) :
    ∀ (d tail : List Char),
      (∀ i, i < d.length → l0.isPrefixOf (List.drop i (d ++ tail)) = false) →
      pySub (Tok.lit l0 :: ts0) repl (d ++ tail) =
        d ++ pySub (Tok.lit l0 :: ts0) repl tail := by
  intro d
  induction d with
  | nil => intro tail _; rfl
  | cons c cs ih =>
    intro tail h
    have h0 : l0.isPrefixOf (c :: (cs ++ tail)) = false := by
      have := h 0 (by simp)
      simpa using this
    have hm : matchToks (Tok.lit l0 :: ts0) (c :: (cs ++ tail)) = none := by
      rw [matchToks_lit, h0]
      rfl
    rw [List.cons_append, pySub_nomatch _ _ _ _ hm, ih tail ?_]
    · rfl
    · intro i hi
      have := h (i + 1) (by simp only [List.length_cons]; omega)
      rw [List.cons_append, List.drop_succ_cons] at this
      exact this

/-- No pattern whose leading literal starts with three backticks can match at
a position inside a backtick-free block `d`, even with an arbitrary
non-backtick-headed tail appended. -/
theorem no_btpat_hit (n : List Char) (hn : (str "```").isPrefixOf n = true)
    (d tail : List Char) (hbt : containsSub (str "```") d = false)
    (htail : tail.head? ≠ some '`') :
    ∀ i, i < d.length → n.isPrefixOf (List.drop i (d ++ tail)) = false := by
  intro i hi
  cases htrue : n.isPrefixOf (List.drop i (d ++ tail)) with
  | false => rfl
  | true =>
    exfalso
    rw [List.drop_append_eq_append_drop, show i - d.length = 0 from by omega,
      List.drop_zero] at htrue
    have hbtp : (str "```").isPrefixOf (d.drop i ++ tail) = true :=
      isPrefixOf_trans hn htrue
    rcases isPrefixOf_append_split (str "```") (d.drop i) tail hbtp with
      ⟨hl, hp⟩ | ⟨hl, hp, hq⟩
    · rw [containsSub_of_prefix_drop (str "```") (by decide) d i hp] at hbt
      exact Bool.true_eq_false.mp hbt
    · have hxlen : 1 ≤ (d.drop i).length := by
        rw [List.length_drop]
        omega
      have hc3 : (str "```").length = 3 := rfl
      rw [hc3] at hl
      have hform : ∃ rest, (str "```").drop (d.drop i).length = '`' :: rest := by
        rcases (by omega : (d.drop i).length = 1 ∨ (d.drop i).length = 2) with h1 | h2
        · rw [h1]
          exact ⟨['`'], rfl⟩
        · rw [h2]
          exact ⟨[], rfl⟩
      obtain ⟨rest, hfm⟩ := hform
      rw [hfm] at hq
      cases tail with
      | nil => simp [List.isPrefixOf] at hq
      | cons tc ttail =>
        rw [List.isPrefixOf_cons₂, Bool.and_eq_true] at hq
        have hteq : '`' = tc := by
          have h1 := hq.1
          simpa using h1
        exact htail (by rw [← hteq]; rfl)

/-- If a required literal first occurs at offset `k` and the rest of the
pattern matches after it, the lazy `.*?` + literal combination matches
through the first occurrence. -/
theorem matchToks_starL_lit_hit (n : List Char) (ts : List Tok) (hn : n ≠ []) :
    ∀ (k : ℕ) (s : List Char) (r : List Char),
      n.isPrefixOf (s.drop k) = true →
      (∀ i, i < k → n.isPrefixOf (s.drop i) = false) →
      matchToks ts ((s.drop k).drop n.length) = some r →
      matchToks (Tok.starL anyC :: Tok.lit n :: ts) s = some r := by
  intro k
  induction k with
  | zero =>
    intro s r hk _ hrest
    rw [List.drop_zero] at hk hrest
    rw [matchToks_starL, matchToks_lit, if_pos hk, hrest]
    rfl
  | succ k ih =>
    intro s r hk hbefore hrest
    cases s with
    | nil =>
      rw [List.drop_nil] at hk
      cases n with
      | nil => exact absurd rfl hn
      | cons a n' => simp [List.isPrefixOf] at hk
    | cons c cs =>
      have h0 : n.isPrefixOf (c :: cs) = false := by
        have := hbefore 0 (by omega)
        rwa [List.drop_zero] at this
      have hstep : matchToks (Tok.starL anyC :: Tok.lit n :: ts) cs = some r := by
        refine ih cs r ?_ ?_ ?_
        · rwa [List.drop_succ_cons] at hk
        · intro i hi
          have := hbefore (i + 1) (by omega)
          rwa [List.drop_succ_cons] at this
        · rwa [List.drop_succ_cons] at hrest
      rw [matchToks_starL, matchToks_lit, if_neg (by simp [h0])]
      show (if anyC c then matchToks (Tok.starL anyC :: Tok.lit n :: ts) cs else none) =
        some r
      rw [if_pos (show anyC c = true from rfl), hstep]

/-- The full-document pattern matches `<html>` + body + `</html>` exactly,
leaving any tail, provided the body introduces no earlier `</html>`. -/
theorem matchToks_fullDoc (b tail : List Char)
    (hclose : ∀ i, i < b.length →
      (str "</html>").isPrefixOf (List.drop i (b ++ (str "</html>"))) = false) :
    matchToks fullDocPat
      ((str "<html>") ++ (b ++ ((str "</html>") ++ tail))) = some tail := by
  simp only [fullDocPat]
  rw [matchToks_optBlock]
  have hx1 : matchToks (Tok.lit (str "<?xml") :: Tok.starL anyC :: Tok.lit (str "?>") ::
      Tok.optBlock (str "<!DOCTYPE") (str ">") :: Tok.lit (str "<html") :: Tok.starL anyC ::
      Tok.lit (str ">") :: Tok.starL anyC :: Tok.lit (str "</html>") :: [])
      ((str "<html>") ++ (b ++ ((str "</html>") ++ tail))) = none := by
    rw [matchToks_lit,
      if_neg (by rw [show (str "<?xml").isPrefixOf ((str "<html>") ++
        (b ++ ((str "</html>") ++ tail))) = false from rfl]; simp)]
  rw [hx1]
  show matchToks (Tok.optBlock (str "<!DOCTYPE") (str ">") :: Tok.lit (str "<html") ::
    Tok.starL anyC :: Tok.lit (str ">") :: Tok.starL anyC ::
    Tok.lit (str "</html>") :: [])
    ((str "<html>") ++ (b ++ ((str "</html>") ++ tail))) = some tail
  rw [matchToks_optBlock]
  have hx2 : matchToks (Tok.lit (str "<!DOCTYPE") :: Tok.starL anyC :: Tok.lit (str ">") ::
      Tok.lit (str "<html") :: Tok.starL anyC :: Tok.lit (str ">") :: Tok.starL anyC ::
      Tok.lit (str "</html>") :: [])
      ((str "<html>") ++ (b ++ ((str "</html>") ++ tail))) = none := by
    rw [matchToks_lit,
      if_neg (by rw [show (str "<!DOCTYPE").isPrefixOf ((str "<html>") ++
        (b ++ ((str "</html>") ++ tail))) = false from rfl]; simp)]
  rw [hx2]
  show matchToks (Tok.lit (str "<html") :: Tok.starL anyC :: Tok.lit (str ">") ::
    Tok.starL anyC :: Tok.lit (str "</html>") :: [])
    ((str "<html>") ++ (b ++ ((str "</html>") ++ tail))) = some tail
  rw [matchToks_lit, if_pos (show (str "<html").isPrefixOf ((str "<html>") ++
    (b ++ ((str "</html>") ++ tail))) = true from rfl)]
  show matchToks (Tok.starL anyC :: Tok.lit (str ">") :: Tok.starL anyC ::
    Tok.lit (str "</html>") :: [])
    ('>' :: (b ++ ((str "</html>") ++ tail))) = some tail
  refine matchToks_starL_lit_hit (str ">") _ (by decide) 0
    ('>' :: (b ++ ((str "</html>") ++ tail))) tail
    (by simp [str, List.isPrefixOf]) (by omega) ?_
  show matchToks (Tok.starL anyC :: Tok.lit (str "</html>") :: [])
    (b ++ ((str "</html>") ++ tail)) = some tail
  refine matchToks_starL_lit_hit (str "</html>") [] (by decide) b.length
    (b ++ ((str "</html>") ++ tail)) tail ?_ ?_ ?_
  · rw [List.drop_left]
    simp [str, List.isPrefixOf]
  · intro i hi
    rw [List.drop_append_eq_append_drop, show i - b.length = 0 from by omega,
      List.drop_zero, ← List.append_assoc,
      isPrefixOf_append_stable _ _ _ (by
        rw [List.length_append, List.length_drop]
        show 7 ≤ b.length - i + (str "</html>").length
        rw [show (str "</html>").length = 7 from rfl]
        omega)]
    have := hclose i hi
    rwa [List.drop_append_eq_append_drop, show i - b.length = 0 from by omega,
      List.drop_zero] at this
  · rw [List.drop_left]
    show matchToks [] tail = some tail
    exact matchToks_nil tail

theorem containsSub_cons (n : List Char) (c : Char) (cs : List Char) :
    containsSub n (c :: cs) = (n.isPrefixOf (c :: cs) || containsSub n cs) := rfl

theorem isPrefixOf_append_self (n t : List Char) : n.isPrefixOf (n ++ t) = true := by
  induction n with
  | nil => simp [List.isPrefixOf]
  | cons a as ih => simpa [List.isPrefixOf] using ih

theorem isPrefixOf_length_le {n x : List Char} (h : n.isPrefixOf x = true) :
    n.length ≤ x.length := by
  rw [List.isPrefixOf_iff_prefix] at h
  exact h.length_le

theorem isPrefixOf_take (x : List Char) (n : ℕ) : (x.take n).isPrefixOf x = true := by
  rw [List.isPrefixOf_iff_prefix]
  exact List.take_prefix n x

theorem isPrefixOf_cons_neq (a b : Char) (as bs : List Char) (h : (a == b) = false) :
    (a :: as).isPrefixOf (b :: bs) = false := by
  rw [List.isPrefixOf_cons₂, h, Bool.false_and]

theorem isPrefixOf_cons_step (a : Char) (as bs : List Char)
    (h : as.isPrefixOf bs = false) : (a :: as).isPrefixOf (a :: bs) = false := by
  rw [List.isPrefixOf_cons₂, h, Bool.and_false]

theorem containsSub_elim (n : List Char) : ∀ (t : List Char),
    containsSub n t = true → ∃ i, n.isPrefixOf (t.drop i) = true := by
  intro t
  induction t with
  | nil =>
    intro h
    have hn : n = [] := by
      have : n.isEmpty = true := h
      exact List.isEmpty_iff.mp this
    subst hn
    exact ⟨0, rfl⟩
  | cons c cs ih =>
    intro h
    rw [containsSub_cons, Bool.or_eq_true] at h
    rcases h with h1 | h2
    · exact ⟨0, by rwa [List.drop_zero]⟩
    · obtain ⟨i, hi⟩ := ih h2
      exact ⟨i + 1, by rwa [List.drop_succ_cons]⟩

theorem containsSub_take_false (n d : List Char) (k : ℕ) (hn : n ≠ [])
    (h : containsSub n d = false) : containsSub n (d.take k) = false := by
  cases hc : containsSub n (d.take k) with
  | false => rfl
  | true =>
    exfalso
    obtain ⟨i, hpre⟩ := containsSub_elim n _ hc
    have h2 : n.isPrefixOf (d.drop i) = true := by
      refine isPrefixOf_trans hpre ?_
      rw [List.drop_take]
      exact isPrefixOf_take _ _
    rw [containsSub_of_prefix_drop n hn d i h2] at h
    exact Bool.true_eq_false.mp h

theorem containsSub_drop_false (n d : List Char) (k : ℕ) (hn : n ≠ [])
    (h : containsSub n d = false) : containsSub n (d.drop k) = false := by
  cases hc : containsSub n (d.drop k) with
  | false => rfl
  | true =>
    exfalso
    obtain ⟨i, hpre⟩ := containsSub_elim n _ hc
    rw [List.drop_drop] at hpre
    rw [containsSub_of_prefix_drop n hn d (k + i) hpre] at h
    exact Bool.true_eq_false.mp h

theorem matchToks_none_of_not_contains (pat : List Tok) (l : List Char)
    (hl : Tok.lit l ∈ pat) (hlne : l ≠ []) (x : List Char)
    (h : containsSub l x = false) : matchToks pat x = none := by
  cases hm : matchToks pat x with
  | none => rfl
  | some rem =>
    exfalso
    obtain ⟨pre, post, hx, _⟩ := matchF_keeps_lit _ pat x rem hm l hl
    have hc : containsSub l x = true := by
      rw [hx]
      refine containsSub_of_prefix_drop l hlne _ pre.length ?_
      rw [List.append_assoc, List.drop_left]
      exact isPrefixOf_append_self l post
    rw [hc] at h
    exact Bool.true_eq_false.mp h

theorem reSearch_none_of_not_contains (pat : List Tok) (l : List Char)
    (hl : Tok.lit l ∈ pat) (hlne : l ≠ []) : ∀ (s : List Char),
    containsSub l s = false → reSearch pat s = none := by
  intro s
  induction s with
  | nil =>
    intro h
    exact reSearch_none_nil pat (matchToks_none_of_not_contains pat l hl hlne [] h)
  | cons c cs ih =>
    intro h
    have hcs : containsSub l cs = false := by
      rw [containsSub_cons, Bool.or_eq_false_iff] at h
      exact h.2
    rw [reSearch_none_cons pat c cs (matchToks_none_of_not_contains pat l hl hlne _ h),
      ih hcs]
    rfl

theorem pySub_id (l0 : List Char) (ts0 : List Tok) (repl p : List Char)
    (h : ∀ i, i < p.length → l0.isPrefixOf (p.drop i) = false) :
    pySub (Tok.lit l0 :: ts0) repl p = p := by
  have h2 : ∀ i, i < p.length → l0.isPrefixOf (List.drop i (p ++ [])) = false := by
    intro i hi
    rw [List.append_nil]
    exact h i hi
  have h3 := pySub_append_no_match l0 ts0 repl p [] h2
  rw [List.append_nil] at h3
  rw [h3, pySub_nil, List.append_nil]

theorem pySub_id_of_no_bt (l0 : List Char) (hl : (str "```").isPrefixOf l0 = true)
    (ts0 : List Tok) (repl p : List Char)
    (hbt : containsSub (str "```") p = false) :
    pySub (Tok.lit l0 :: ts0) repl p = p := by
  refine pySub_id l0 ts0 repl p ?_
  intro i hi
  have h := no_btpat_hit l0 hl p [] hbt (by simp) i hi
  rwa [List.append_nil] at h

theorem cleanSubs_id (p : List Char) (hbt : containsSub (str "```") p = false) :
    cleanSubs p = p := by
  simp only [cleanSubs, fenceHtmlPat, fenceEndPat, fenceAnyPat]
  rw [pySub_id_of_no_bt (str "```html") (by decide) _ _ _ hbt,
    pySub_id_of_no_bt (str "```") (by decide) _ _ _ hbt,
    pySub_id_of_no_bt (str "```") (by decide) _ _ _ hbt]

theorem matchToks_starG_stop (p : Char → Bool) (c : Char) (cs : List Char)
    (hc : p c = false) : matchToks [Tok.starG p] (c :: cs) = some (c :: cs) := by
  rw [matchToks_starG]
  simp only [hc, Bool.false_eq_true, if_false]
  exact matchToks_nil _

theorem matchToks_starG_skip (p : Char → Bool) (c : Char) (cs r : List Char)
    (hc : p c = true) (h : matchToks [Tok.starG p] cs = some r) :
    matchToks [Tok.starG p] (c :: cs) = some r := by
  rw [matchToks_starG]
  simp only [hc, if_true, h]
  rfl

theorem take_wellFormedDoc (b : List Char) (k : ℕ) (h6 : 6 ≤ k) :
    (wellFormedDoc b).take k =
      (str "<html>") ++ ((b ++ (str "</html>")).take (k - 6)) := by
  show ((str "<html>") ++ (b ++ (str "</html>"))).take k = _
  rw [List.take_append_eq_append_take,
    List.take_of_length_le (by rw [show (str "<html>").length = 6 from by decide]; omega),
    show k - (str "<html>").length = k - 6 from by
      rw [show (str "<html>").length = 6 from by decide]]

theorem drop_wellFormedDoc (b : List Char) (k : ℕ) (h6 : 6 ≤ k) :
    (wellFormedDoc b).drop k = (b ++ (str "</html>")).drop (k - 6) := by
  show ((str "<html>") ++ (b ++ (str "</html>"))).drop k = _
  rw [List.drop_append_eq_append_drop,
    List.drop_eq_nil_of_le (by rw [show (str "<html>").length = 6 from by decide]; omega),
    List.nil_append,
    show k - (str "<html>").length = k - 6 from by
      rw [show (str "<html>").length = 6 from by decide]]

theorem length_wellFormedDoc (b : List Char) :
    (wellFormedDoc b).length = b.length + 13 := by
  show ((str "<html>") ++ (b ++ (str "</html>"))).length = _
  rw [List.length_append, List.length_append,
    show (str "<html>").length = 6 from by decide,
    show (str "</html>").length = 7 from by decide]
  omega

theorem close_not_in_take (b : List Char)
    (hclose : ∀ i, i < b.length →
      (str "</html>").isPrefixOf (List.drop i (b ++ (str "</html>"))) = false)
    (k : ℕ) (h6 : 6 ≤ k) (hk : k ≤ 6 + b.length) :
    containsSub (str "</html>") ((wellFormedDoc b).take k) = false := by
  rw [take_wellFormedDoc b k h6]
  have hQfalse :
      containsSub (str "</html>") ((b ++ (str "</html>")).take (k - 6)) = false := by
    cases hcc : containsSub (str "</html>") ((b ++ (str "</html>")).take (k - 6)) with
    | false => rfl
    | true =>
      exfalso
      obtain ⟨i, hipre⟩ := containsSub_elim _ _ hcc
      have hlen7 := isPrefixOf_length_le hipre
      rw [List.length_drop, List.length_take, List.length_append,
        show (str "</html>").length = 7 from by decide] at hlen7
      have hib : i < b.length := by omega
      have hpre2 :
          (str "</html>").isPrefixOf ((b ++ (str "</html>")).drop i) = true := by
        refine isPrefixOf_trans hipre ?_
        rw [List.drop_take]
        exact isPrefixOf_take _ _
      rw [hclose i hib] at hpre2
      exact Bool.false_ne_true hpre2
  show containsSub (str "</html>")
    ('<' :: ('h' :: ('t' :: ('m' :: ('l' :: ('>' ::
      ((b ++ (str "</html>")).take (k - 6)))))))) = false
  have hp0 : (str "</html>").isPrefixOf
      ('<' :: ('h' :: ('t' :: ('m' :: ('l' :: ('>' ::
        ((b ++ (str "</html>")).take (k - 6)))))))) = false := by
    show ('<' :: ('/' :: (str "html>"))).isPrefixOf _ = false
    exact isPrefixOf_cons_step '<' _ _ (isPrefixOf_cons_neq '/' 'h' _ _ (by decide))
  have hp1 : (str "</html>").isPrefixOf
      ('h' :: ('t' :: ('m' :: ('l' :: ('>' ::
        ((b ++ (str "</html>")).take (k - 6))))))) = false := by
    show ('<' :: ('/' :: (str "html>"))).isPrefixOf _ = false
    exact isPrefixOf_cons_neq '<' 'h' _ _ (by decide)
  have hp2 : (str "</html>").isPrefixOf
      ('t' :: ('m' :: ('l' :: ('>' ::
        ((b ++ (str "</html>")).take (k - 6)))))) = false := by
    show ('<' :: ('/' :: (str "html>"))).isPrefixOf _ = false
    exact isPrefixOf_cons_neq '<' 't' _ _ (by decide)
  have hp3 : (str "</html>").isPrefixOf
      ('m' :: ('l' :: ('>' :: ((b ++ (str "</html>")).take (k - 6))))) = false := by
    show ('<' :: ('/' :: (str "html>"))).isPrefixOf _ = false
    exact isPrefixOf_cons_neq '<' 'm' _ _ (by decide)
  have hp4 : (str "</html>").isPrefixOf
      ('l' :: ('>' :: ((b ++ (str "</html>")).take (k - 6)))) = false := by
    show ('<' :: ('/' :: (str "html>"))).isPrefixOf _ = false
    exact isPrefixOf_cons_neq '<' 'l' _ _ (by decide)
  have hp5 : (str "</html>").isPrefixOf
      ('>' :: ((b ++ (str "</html>")).take (k - 6))) = false := by
    show ('<' :: ('/' :: (str "html>"))).isPrefixOf _ = false
    exact isPrefixOf_cons_neq '<' '>' _ _ (by decide)
  simp only [containsSub_cons, hp0, hp1, hp2, hp3, hp4, hp5, hQfalse, Bool.false_or]

theorem pyStrip_wellFormedDoc (b : List Char) :
    pyStrip (wellFormedDoc b) = wellFormedDoc b := by
  have h1 : (wellFormedDoc b).dropWhile pyWs = wellFormedDoc b := by
    show List.dropWhile pyWs ('<' :: ((str "html>") ++ (b ++ (str "</html>")))) =
      ('<' :: ((str "html>") ++ (b ++ (str "</html>"))))
    rw [List.dropWhile_cons_of_neg (by decide)]
  have h2 : List.dropWhile pyWs ((wellFormedDoc b).reverse) =
      (wellFormedDoc b).reverse := by
    have hrev : (wellFormedDoc b).reverse =
        '>' :: ((str "lmth/<") ++ (b.reverse ++ (str ">lmth<"))) := by
      show ((str "<html>") ++ (b ++ (str "</html>"))).reverse = _
      rw [List.reverse_append, List.reverse_append,
        show (str "</html>").reverse = '>' :: (str "lmth/<") from by decide,
        show (str "<html>").reverse = str ">lmth<" from by decide]
      simp [List.append_assoc]
    rw [hrev, List.dropWhile_cons_of_neg (by decide)]
  show (((wellFormedDoc b).dropWhile pyWs).reverse.dropWhile pyWs).reverse =
    wellFormedDoc b
  rw [h1, h2, List.reverse_reverse]

/-- C6 (counterexample): a well-formed document that itself contains a fenced
code block is mangled by the fence substitutions, so the fenced round-trip
does not hold for every well-formed document as the spec states. -/
theorem sanitizer_round_trip_counterexample :
    cleanHtmlResponse (fenceWrap (str "<html><p>```js</p></html>")) none 3 =
      CleanResult.cleaned (str "<html><p></p></html>") ∧
    cleanHtmlResponse (fenceWrap (str "<html><p>```js</p></html>")) none 3 ≠
      CleanResult.cleaned (str "<html><p>```js</p></html>") := by
  constructor
  · decide
  · decide

/-- A working text on which one pass of the retry loop is the identity (no
JSON, no fences, no pattern match, no opening tag, no blank-line run) can
never produce the partial signal, whatever the fuel. -/
theorem cleanLoopF_stuck (t : List Char)
    (hstep : ∀ cr : Bool, cleanPass (CleanState.text t) cr =
      (if cr then Sum.inr (CleanState.text t)
       else Sum.inl (CleanResult.error failMsg))) :
    ∀ (f : ℕ) (c : List Char),
      cleanLoopF f (CleanState.text t) ≠ CleanResult.partResult c := by
  intro f
  induction f with
  | zero =>
    intro c h
    exact CleanResult.noConfusion h
  | succ f ih =>
    intro c h
    have h2 : (match cleanPass (CleanState.text t) (decide (1 ≤ f)) with
        | Sum.inl r => r
        | Sum.inr st => cleanLoopF f st) = CleanResult.partResult c := h
    rw [hstep] at h2
    cases hd : decide (1 ≤ f) with
    | false =>
      rw [hd] at h2
      simp at h2
    | true =>
      rw [hd] at h2
      simp at h2
      exact ih c h2

theorem take_lt6_wellFormedDoc (b : List Char) (k : ℕ) (hk : k ≤ 6) :
    (wellFormedDoc b).take k = (str "<html>").take k := by
  show ((str "<html>") ++ (b ++ (str "</html>"))).take k = _
  rw [List.take_append_eq_append_take,
    show k - (str "<html>").length = 0 from by
      rw [show (str "<html>").length = 6 from by decide]
      omega,
    List.take_zero, List.append_nil]

/-- C6 (amended): for a backtick-free well-formed document (body with no
premature `</html>` and no nested `<html`), the fenced round-trip holds — (1)
cleaning the fence-wrapped document and (2) cleaning the bare document both
return the document unchanged — and (3) for every split of the document, if
cleaning the prefix returned the partial signal carrying it, then cleaning the
suffix with that prefix as `previous_partial` equals cleaning the whole
document in one call. -/
theorem sanitizer_round_trip_amended (b : List Char) (mr : ℕ)
    (hbt : containsSub (str "```") (wellFormedDoc b) = false)
    (hclose : ∀ i, i < b.length →
      (str "</html>").isPrefixOf (List.drop i (b ++ (str "</html>"))) = false)
    (hnh : containsSub (str "<html") (b ++ (str "</html>")) = false) :
    cleanHtmlResponse (fenceWrap (wellFormedDoc b)) none (mr + 1) =
      CleanResult.cleaned (wellFormedDoc b) ∧
    cleanHtmlResponse (wellFormedDoc b) none (mr + 1) =
      CleanResult.cleaned (wellFormedDoc b) ∧
    ∀ k : ℕ,
      cleanHtmlResponse ((wellFormedDoc b).take k) none (mr + 1) =
        CleanResult.partResult ((wellFormedDoc b).take k) →
      cleanHtmlResponse ((wellFormedDoc b).drop k)
          (some ((wellFormedDoc b).take k)) (mr + 1) =
        cleanHtmlResponse (wellFormedDoc b) none (mr + 1) := by
  have hdne : wellFormedDoc b ≠ [] := by
    show ('<' :: ((str "html>") ++ (b ++ (str "</html>")))) ≠ []
    exact List.cons_ne_nil _ _
  have memFullOpen : Tok.lit (str "<html") ∈ fullDocPat :=
    List.mem_cons_of_mem _ (List.mem_cons_of_mem _ (List.mem_cons_self _ _))
  -- the positive full-document matches
  have hm0 : matchToks fullDocPat (wellFormedDoc b) = some [] := by
    have h := matchToks_fullDoc b [] hclose
    rw [List.append_nil] at h
    exact h
  have hfull0 : reSearch fullDocPat (wellFormedDoc b) =
      some ([], wellFormedDoc b, []) := by
    have h := reSearch_some fullDocPat (wellFormedDoc b) [] hm0
    rw [show (wellFormedDoc b).length - ([] : List Char).length =
      (wellFormedDoc b).length from by simp, List.take_length] at h
    exact h
  have hmF : matchToks fullDocPat ((wellFormedDoc b) ++ (str "\n")) =
      some (str "\n") := by
    rw [show (wellFormedDoc b) ++ (str "\n") =
      (str "<html>") ++ (b ++ ((str "</html>") ++ (str "\n"))) from by
        simp [wellFormedDoc, List.append_assoc]]
    exact matchToks_fullDoc b (str "\n") hclose
  have hfullF : reSearch fullDocPat ((wellFormedDoc b) ++ (str "\n")) =
      some ([], wellFormedDoc b, str "\n") := by
    have h := reSearch_some fullDocPat ((wellFormedDoc b) ++ (str "\n")) (str "\n") hmF
    rw [show ((wellFormedDoc b) ++ (str "\n")).length - (str "\n").length =
      (wellFormedDoc b).length from by simp, List.take_left] at h
    exact h
  -- the fence-substitution computation
  have hm1 : matchToks fenceHtmlPat (fenceWrap (wellFormedDoc b)) =
      some ((wellFormedDoc b) ++ (str "\n```")) := by
    show matchToks [Tok.lit (str "```html"), Tok.starG pyWs]
        ((str "```html") ++ ('\n' :: ((wellFormedDoc b) ++ (str "\n```")))) =
      some ((wellFormedDoc b) ++ (str "\n```"))
    rw [matchToks_lit, if_pos (isPrefixOf_append_self _ _), List.drop_left]
    refine matchToks_starG_skip pyWs '\n' _ _ rfl ?_
    show matchToks [Tok.starG pyWs]
        ('<' :: (((str "html>") ++ (b ++ (str "</html>"))) ++ (str "\n```"))) =
      some ('<' :: (((str "html>") ++ (b ++ (str "</html>"))) ++ (str "\n```")))
    exact matchToks_starG_stop pyWs '<' _ rfl
  have hlt1 : ((wellFormedDoc b) ++ (str "\n```")).length <
      (fenceWrap (wellFormedDoc b)).length := by
    show _ < ((str "```html") ++ ('\n' :: ((wellFormedDoc b) ++ (str "\n```")))).length
    simp only [List.length_append, List.length_cons]
    omega
  have hstep1 : pySub fenceHtmlPat [] (fenceWrap (wellFormedDoc b)) =
      (wellFormedDoc b) ++ (str "\n```") := by
    have hsub := pySub_match fenceHtmlPat [] '`'
      ((str "``html") ++ ('\n' :: ((wellFormedDoc b) ++ (str "\n```"))))
      ((wellFormedDoc b) ++ (str "\n```")) hm1 hlt1
    rw [List.nil_append] at hsub
    have hrest : pySub fenceHtmlPat [] ((wellFormedDoc b) ++ (str "\n```")) =
        (wellFormedDoc b) ++ (str "\n```") := by
      simp only [fenceHtmlPat]
      rw [pySub_append_no_match (str "```html") [Tok.starG pyWs] []
          (wellFormedDoc b) (str "\n```")
          (no_btpat_hit (str "```html") (by decide) _ _ hbt (by decide)),
        show pySub (Tok.lit (str "```html") :: [Tok.starG pyWs]) [] (str "\n```") =
          str "\n```" from by decide]
    exact hsub.trans hrest
  have hstep2 : pySub fenceEndPat [] ((wellFormedDoc b) ++ (str "\n```")) =
      (wellFormedDoc b) ++ (str "\n") := by
    simp only [fenceEndPat]
    rw [pySub_append_no_match (str "```") [Tok.starG pyWs, Tok.endA] []
        (wellFormedDoc b) (str "\n```")
        (no_btpat_hit (str "```") (by decide) _ _ hbt (by decide)),
      show pySub (Tok.lit (str "```") :: [Tok.starG pyWs, Tok.endA]) [] (str "\n```") =
        str "\n" from by decide]
  have hstep3 : pySub fenceAnyPat [] ((wellFormedDoc b) ++ (str "\n")) =
      (wellFormedDoc b) ++ (str "\n") := by
    simp only [fenceAnyPat]
    rw [pySub_append_no_match (str "```") [Tok.starG pyAlpha, Tok.starG pyWs] []
        (wellFormedDoc b) (str "\n")
        (no_btpat_hit (str "```") (by decide) _ _ hbt (by decide)),
      show pySub (Tok.lit (str "```") :: [Tok.starG pyAlpha, Tok.starG pyWs]) []
        (str "\n") = str "\n" from by decide]
  have hsubsF : cleanSubs (fenceWrap (wellFormedDoc b)) =
      (wellFormedDoc b) ++ (str "\n") := by
    show pySub fenceAnyPat [] (pySub fenceEndPat []
      (pySub fenceHtmlPat [] (fenceWrap (wellFormedDoc b)))) = _
    rw [hstep1, hstep2, hstep3]
  -- the json steps
  have hjsonD : jsonStep (wellFormedDoc b) = .text (wellFormedDoc b) :=
    jsonStep_head_lt ((str "html>") ++ (b ++ (str "</html>")))
  have hjsonF : jsonStep (fenceWrap (wellFormedDoc b)) =
      .text (fenceWrap (wellFormedDoc b)) :=
    jsonStep_head_bt ((str "``html") ++ ('\n' :: ((wellFormedDoc b) ++ (str "\n```"))))
  -- conjunct 1: the fenced round-trip
  have hpassF : ∀ cr : Bool, cleanPass (.text (fenceWrap (wellFormedDoc b))) cr =
      .inl (.cleaned (wellFormedDoc b)) := by
    intro cr
    simp only [cleanPass, hjsonF, hsubsF, hfullF, cleanFinalize,
      pyStrip_wellFormedDoc, if_neg hdne]
  have hc1 : cleanHtmlResponse (fenceWrap (wellFormedDoc b)) none (mr + 1) =
      CleanResult.cleaned (wellFormedDoc b) := by
    show cleanLoopF (mr + 1) (.text (stitchStep (fenceWrap (wellFormedDoc b)) none)) = _
    simp only [stitchStep, cleanLoopF, hpassF]
  -- conjunct 2: the bare document
  have hsubsD : cleanSubs (wellFormedDoc b) = wellFormedDoc b := cleanSubs_id _ hbt
  have hpassD : ∀ cr : Bool, cleanPass (.text (wellFormedDoc b)) cr =
      .inl (.cleaned (wellFormedDoc b)) := by
    intro cr
    simp only [cleanPass, hjsonD, hsubsD, hfull0, cleanFinalize,
      pyStrip_wellFormedDoc, if_neg hdne]
  have hc2 : cleanHtmlResponse (wellFormedDoc b) none (mr + 1) =
      CleanResult.cleaned (wellFormedDoc b) := by
    show cleanLoopF (mr + 1) (.text (stitchStep (wellFormedDoc b) none)) = _
    simp only [stitchStep, cleanLoopF, hpassD]
  -- conjunct 3: any split whose prefix-clean signalled partial stitches back
  have hc3 : ∀ k : ℕ,
      cleanHtmlResponse ((wellFormedDoc b).take k) none (mr + 1) =
        CleanResult.partResult ((wellFormedDoc b).take k) →
      cleanHtmlResponse ((wellFormedDoc b).drop k)
          (some ((wellFormedDoc b).take k)) (mr + 1) =
        cleanHtmlResponse (wellFormedDoc b) none (mr + 1) := by
    intro k hpart
    rcases Nat.lt_or_ge k 6 with hk6 | hk6
    · -- a cut inside the opening tag never yields the partial signal
      exfalso
      interval_cases k <;>
        (rw [take_lt6_wellFormedDoc b _ (by omega)] at hpart;
         exact cleanLoopF_stuck _ (by intro cr; cases cr <;> decide) (mr + 1) _ hpart)
    · have hpne : (wellFormedDoc b).take k ≠ [] := by
        intro hnil
        have hlen := congrArg List.length hnil
        rw [List.length_take, length_wellFormedDoc] at hlen
        simp only [List.length_nil] at hlen
        omega
      have hs2full : reSearch fullDocPat ((wellFormedDoc b).drop k) = none := by
        refine reSearch_none_of_not_contains fullDocPat (str "<html") memFullOpen
          (by decide) _ ?_
        rw [drop_wellFormedDoc b k hk6]
        exact containsSub_drop_false _ _ _ (by decide) hnh
      have hstitch : stitchStep ((wellFormedDoc b).drop k)
          (some ((wellFormedDoc b).take k)) = wellFormedDoc b := by
        simp only [stitchStep, if_neg hpne, hs2full]
        exact List.take_append_drop k (wellFormedDoc b)
      show cleanLoopF (mr + 1) (.text (stitchStep ((wellFormedDoc b).drop k)
          (some ((wellFormedDoc b).take k)))) =
        cleanLoopF (mr + 1) (.text (stitchStep (wellFormedDoc b) none))
      rw [hstitch]
      rfl
  exact ⟨hc1, hc2, hc3⟩

/-- Witness for C6: a nine-character body; the split nine characters into the
document satisfies the partial-signal hypothesis, with three retries. -/
theorem sanitizer_round_trip_amended_witness :
    cleanHtmlResponse (fenceWrap (wellFormedDoc (str "<p>ok</p>"))) none 3 =
      CleanResult.cleaned (wellFormedDoc (str "<p>ok</p>")) ∧
    cleanHtmlResponse (wellFormedDoc (str "<p>ok</p>")) none 3 =
      CleanResult.cleaned (wellFormedDoc (str "<p>ok</p>")) ∧
    cleanHtmlResponse ((wellFormedDoc (str "<p>ok</p>")).drop 9)
        (some ((wellFormedDoc (str "<p>ok</p>")).take 9)) 3 =
      cleanHtmlResponse (wellFormedDoc (str "<p>ok</p>")) none 3 :=
  have h := sanitizer_round_trip_amended (str "<p>ok</p>") 2 (by decide) (by decide)
    (by decide)
  ⟨h.1, h.2.1, h.2.2 9 (by decide)⟩
